import Mathlib

/-!
# Segmented deque of `container/deque/segmented_slice.go`

A shallow embedding of `SegmentedSlice[T]` and of its operations.

* A Go slice is a `List`; the outer slice `blocks` owns its blocks exclusively, so value
  semantics are faithful.
* The five `int` fields are `Int` (the tail offset really becomes `-1`).  Wrap-around of a
  64-bit `int` would need `2^63` stored elements and is not modelled.
* A run-time panic (index or slice bound out of range) is the result `none`; every operation
  returns an `Option`.
* The zero value `var zero T` is `default` of `Inhabited T`; `make([]T, blockSize)` is a block of
  `blockSize` zero values.
-/

namespace Deque

/-- Number of elements per block: `const blockSize = 64`. -/
def blockSize : Int := 64

/-- Go indexing `xs[i]` for reading: a panic (`none`) when `i` is negative or `i >= len(xs)`. -/
def index? {α : Type} (xs : List α) (i : Int) : Option α :=
  if 0 ≤ i then xs[i.toNat]? else none

/-- Go expression `blocks[b][o]` read as a value: both indexings are bounds-checked. -/
def getSlot {α : Type} (blocks : List (List α)) (b o : Int) : Option α :=
  match index? blocks b with
  | none => none
  | some blk => index? blk o

/-- Go assignment `blocks[b][o] = v`: both indexings are bounds-checked. -/
def setSlot {α : Type} (blocks : List (List α)) (b o : Int) (v : α) : Option (List (List α)) :=
  match index? blocks b with
  | none => none
  | some blk =>
    if 0 ≤ o ∧ o < (blk.length : Int) then
      some (blocks.set b.toNat (blk.set o.toNat v))
    else none

/-- The struct `SegmentedSlice[T]`. -/
structure SegmentedSlice (T : Type) where
  blocks : List (List T)
  headBlock : Int
  headOffset : Int
  tailBlock : Int
  tailOffset : Int
  length : Int
deriving DecidableEq, Repr

variable {T : Type} [Inhabited T]

/-- The allocation `make([]T, blockSize)`. -/
def newBlock (T : Type) [Inhabited T] : List T :=
  List.replicate blockSize.toNat default

/-- The constructor `NewSegmentedSlice`. -/
def NewSegmentedSlice (T : Type) [Inhabited T] : SegmentedSlice T :=
  { blocks := [newBlock T]
    headBlock := 0
    headOffset := blockSize.tdiv 2
    tailBlock := 0
    tailOffset := blockSize.tdiv 2 - 1
    length := 0 }

/-- The method `Len`. -/
def Len (d : SegmentedSlice T) : Int :=
  d.length

/-- The method `At`: `none` is a panic, otherwise the returned pair. -/
def At (d : SegmentedSlice T) (i : Int) : Option (T × Bool) :=
  if i < 0 ∨ i ≥ d.length then
    some (default, false)
  else
    let abs := d.headOffset + i
    let blockIdx := d.headBlock + abs.tdiv blockSize
    let off := abs.tmod blockSize
    match getSlot d.blocks blockIdx off with
    | none => none
    | some v => some (v, true)

/-- The method `PushBack`: `none` is a panic, otherwise the state after the call. -/
def PushBack (d : SegmentedSlice T) (v : T) : Option (SegmentedSlice T) :=
  let d1 : SegmentedSlice T :=
    if d.tailOffset + 1 = blockSize then
      { d with blocks := d.blocks ++ [newBlock T], tailBlock := d.tailBlock + 1, tailOffset := 0 }
    else
      { d with tailOffset := d.tailOffset + 1 }
  match setSlot d1.blocks d1.tailBlock d1.tailOffset v with
  | none => none
  | some bs => some { d1 with blocks := bs, length := d1.length + 1 }

/-- The method `PushFront`: `none` is a panic, otherwise the state after the call. -/
def PushFront (d : SegmentedSlice T) (v : T) : Option (SegmentedSlice T) :=
  let d1 : SegmentedSlice T :=
    if d.headOffset = 0 then
      { d with blocks := newBlock T :: d.blocks, headBlock := 0, tailBlock := d.tailBlock + 1,
               headOffset := blockSize - 1 }
    else
      { d with headOffset := d.headOffset - 1 }
  match setSlot d1.blocks d1.headBlock d1.headOffset v with
  | none => none
  | some bs => some { d1 with blocks := bs, length := d1.length + 1 }

/-- The method `PopBack`: `none` is a panic, otherwise the returned pair and the state after the
call.  The slice expression `d.blocks[:len(d.blocks)-1]` panics on an empty `blocks`. -/
def PopBack (d : SegmentedSlice T) : Option ((T × Bool) × SegmentedSlice T) :=
  if d.length = 0 then
    some ((default, false), d)
  else
    match getSlot d.blocks d.tailBlock d.tailOffset with
    | none => none
    | some v =>
      let d1 : SegmentedSlice T :=
        { d with tailOffset := d.tailOffset - 1, length := d.length - 1 }
      if d1.tailOffset < 0 ∧ d1.tailBlock > d1.headBlock then
        if d1.blocks.length = 0 then none
        else
          some ((v, true),
            { d1 with blocks := d1.blocks.dropLast, tailBlock := d1.tailBlock - 1,
                      tailOffset := blockSize - 1 })
      else
        some ((v, true), d1)

/-- The method `PopFront`: `none` is a panic, otherwise the returned pair and the state after the
call.  The slice expression `d.blocks[1:]` panics on an empty `blocks`. -/
def PopFront (d : SegmentedSlice T) : Option ((T × Bool) × SegmentedSlice T) :=
  if d.length = 0 then
    some ((default, false), d)
  else
    match getSlot d.blocks d.headBlock d.headOffset with
    | none => none
    | some v =>
      let d1 : SegmentedSlice T :=
        { d with headOffset := d.headOffset + 1, length := d.length - 1 }
      if d1.headOffset = blockSize ∧ d1.headBlock < d1.tailBlock then
        match d1.blocks with
        | [] => none
        | _ :: rest =>
          some ((v, true),
            { d1 with blocks := rest, headOffset := 0, tailBlock := d1.tailBlock - 1,
                      headBlock := 0 })
      else
        some ((v, true), d1)

/-- The loop of `Begin`, started at index `i` with `n` iterations left to run: the values handed
to `yield`, in order; `none` is a panic inside `At`.  The loop condition `i < d.length` is still
tested at every iteration. -/
def beginLoop (d : SegmentedSlice T) (yield : T → Bool) : Nat → Int → Option (List T)
  | 0, _ => some []
  | n + 1, i =>
    if i < d.length then
      match At d i with
      | none => none
      | some (v, ok) =>
        if !ok then some []
        else if !yield v then some [v]
        else (beginLoop d yield n (i + 1)).map (fun rest => v :: rest)
    else some []

/-- The iterator `Begin` driven by the consumer `yield`.  The index runs over `0 .. length-1`,
so `length` iterations are enough. -/
def Begin (d : SegmentedSlice T) (yield : T → Bool) : Option (List T) :=
  beginLoop d yield d.length.toNat 0

/-- The loop of `End`, started at index `i` with `n` iterations left to run. -/
def endLoop (d : SegmentedSlice T) (yield : T → Bool) : Nat → Int → Option (List T)
  | 0, _ => some []
  | n + 1, i =>
    if i ≥ 0 then
      match At d i with
      | none => none
      | some (v, ok) =>
        if !ok then some []
        else if !yield v then some [v]
        else (endLoop d yield n (i - 1)).map (fun rest => v :: rest)
    else some []

/-- The iterator `End` driven by the consumer `yield`. -/
def End (d : SegmentedSlice T) (yield : T → Bool) : Option (List T) :=
  endLoop d yield d.length.toNat (d.length - 1)

/-! ## Calls, runs and reachable states -/

/-- A call of the public interface. -/
inductive Call (T : Type) where
  | pushBack (v : T)
  | pushFront (v : T)
  | popBack
  | popFront
  | atIndex (i : Int)
  | len
deriving DecidableEq, Repr

/-- What a call returns: nothing, a pair `(T, bool)` or an `int`. -/
inductive Ret (T : Type) where
  | unit
  | pair (r : T × Bool)
  | int (n : Int)
deriving DecidableEq, Repr

/-- One call on a state: `none` is a panic, otherwise the result and the state after the call. -/
def step (d : SegmentedSlice T) : Call T → Option (Ret T × SegmentedSlice T)
  | .pushBack v => (PushBack d v).map (fun d1 => (Ret.unit, d1))
  | .pushFront v => (PushFront d v).map (fun d1 => (Ret.unit, d1))
  | .popBack => (PopBack d).map (fun p => (Ret.pair p.1, p.2))
  | .popFront => (PopFront d).map (fun p => (Ret.pair p.1, p.2))
  | .atIndex i => (At d i).map (fun r => (Ret.pair r, d))
  | .len => some (Ret.int (Len d), d)

/-- A sequence of calls, left to right, collecting the results; `none` as soon as one panics. -/
def run (d : SegmentedSlice T) : List (Call T) → Option (List (Ret T) × SegmentedSlice T)
  | [] => some ([], d)
  | c :: cs =>
    match step d c with
    | none => none
    | some (r, d1) =>
      match run d1 cs with
      | none => none
      | some (rs, d2) => some (r :: rs, d2)

/-- States reachable from `NewSegmentedSlice()` by `PushBack`, `PushFront`, `PopBack` and
`PopFront` calls that return.  (A pop that panics does so at its first read, before any field is
written, so a panicking call leaves no new state behind.) -/
inductive Reachable : SegmentedSlice T → Prop where
  | new : Reachable (NewSegmentedSlice T)
  | pushBack {d d1 : SegmentedSlice T} (v : T) :
      Reachable d → PushBack d v = some d1 → Reachable d1
  | pushFront {d d1 : SegmentedSlice T} (v : T) :
      Reachable d → PushFront d v = some d1 → Reachable d1
  | popBack {d d1 : SegmentedSlice T} (r : T × Bool) :
      Reachable d → PopBack d = some (r, d1) → Reachable d1
  | popFront {d d1 : SegmentedSlice T} (r : T × Bool) :
      Reachable d → PopFront d = some (r, d1) → Reachable d1

/-! ## Representation -/

/-- The element stored at absolute slot `a` (counted from slot 0 of block 0). -/
def slot {α : Type} (blocks : List (List α)) (a : Nat) : Option α :=
  match blocks[a / 64]? with
  | none => none
  | some blk => blk[a % 64]?

/-- Structural invariant of the reachable states.  The head offset may be `blockSize` and the
tail offset may be `-1`: a pop that empties the sole block leaves the cursor there. -/
structure Inv (d : SegmentedSlice T) : Prop where
  headBlock : d.headBlock = 0
  tailBlock : 0 ≤ d.tailBlock
  blocksLen : (d.blocks.length : Int) = d.tailBlock + 1
  blockSz : ∀ b ∈ d.blocks, b.length = 64
  headLo : 0 ≤ d.headOffset
  headHi : d.headOffset ≤ 64
  tailLo : -1 ≤ d.tailOffset
  tailHi : d.tailOffset ≤ 63
  len : d.length = d.tailBlock * 64 + d.tailOffset - d.headOffset + 1
  lenNonneg : 0 ≤ d.length

/-- The state `d` stores the list `L`: logical position `i` is absolute slot `headOffset + i`. -/
def Stores (d : SegmentedSlice T) (L : List T) : Prop :=
  d.length = L.length ∧
    ∀ i : Nat, i < L.length → slot d.blocks (d.headOffset.toNat + i) = L[i]?

/-- The head cursor points into its block, or there is nothing to pop. -/
def HeadOK (d : SegmentedSlice T) : Prop :=
  d.headOffset < 64 ∨ d.length = 0

/-- The tail cursor points into its block, or there is nothing to pop. -/
def TailOK (d : SegmentedSlice T) : Prop :=
  0 ≤ d.tailOffset ∨ d.length = 0

/-! ## Reference list and client loops -/

/-- Reference model on a plain list: `PushBack` appends, `PushFront` prepends, `PopBack` removes
and returns the last element or reports false when empty, `PopFront` removes and returns the
first element or reports false when empty, `At(i)` indexes the list or reports false when out of
range, `Len` is the list length. -/
def refStep (L : List T) : Call T → Ret T × List T
  | .pushBack v => (Ret.unit, L ++ [v])
  | .pushFront v => (Ret.unit, v :: L)
  | .popBack =>
    match L.getLast? with
    | none => (Ret.pair (default, false), L)
    | some x => (Ret.pair (x, true), L.dropLast)
  | .popFront =>
    match L with
    | [] => (Ret.pair (default, false), [])
    | x :: rest => (Ret.pair (x, true), rest)
  | .atIndex i =>
    if 0 ≤ i then
      match L[i.toNat]? with
      | none => (Ret.pair (default, false), L)
      | some x => (Ret.pair (x, true), L)
    else (Ret.pair (default, false), L)
  | .len => (Ret.int L.length, L)

/-- The reference model run over a sequence of calls. -/
def refRun (L : List T) : List (Call T) → List (Ret T) × List T
  | [] => ([], L)
  | c :: cs => ((refStep L c).1 :: (refRun (refStep L c).2 cs).1, (refRun (refStep L c).2 cs).2)

/-- A push call: `PushBack(v)` or `PushFront(v)`. -/
inductive Push (T : Type) where
  | back (v : T)
  | front (v : T)
deriving DecidableEq, Repr

/-- The interface call of a push. -/
def Push.toCall : Push T → Call T
  | .back v => Call.pushBack v
  | .front v => Call.pushFront v

/-- The reference list of a sequence of pushes: append `v` for `PushBack(v)`, prepend `v` for
`PushFront(v)`. -/
def refList (L : List T) : List (Push T) → List T
  | [] => L
  | .back v :: ps => refList (L ++ [v]) ps
  | .front v :: ps => refList (v :: L) ps

/-- The client loop `for { v, ok := d.PopFront(); if !ok { break }; out = append(out, v) }`,
run for at most `n` calls of `PopFront`: the values collected and the final state.  `none` is a
panic, or `n` calls without reaching the `false` flag. -/
def drainFront : Nat → SegmentedSlice T → Option (List T × SegmentedSlice T)
  | 0, _ => none
  | n + 1, d =>
    match PopFront d with
    | none => none
    | some ((v, ok), d1) =>
      if ok then (drainFront n d1).map (fun p => (v :: p.1, p.2))
      else some ([], d1)

/-! ## Concrete call sequences -/

/-- Thirty-two `PushBack(7)`, thirty-two `PopFront()`, then `PushBack(99)`. -/
def callsA : List (Call Int) :=
  List.replicate 32 (Call.pushBack 7) ++ List.replicate 32 Call.popFront ++ [Call.pushBack 99]

/-- What the calls of `callsA` return. -/
def retsA : List (Ret Int) :=
  List.replicate 32 Ret.unit ++ List.replicate 32 (Ret.pair (7, true)) ++ [Ret.unit]

/-- The state after `callsA`: one element, stored in block 1, and the head offset at 64. -/
def stateA : SegmentedSlice Int :=
  { blocks := [List.replicate 32 0 ++ List.replicate 32 7, 99 :: List.replicate 63 0]
    headBlock := 0
    headOffset := 64
    tailBlock := 1
    tailOffset := 0
    length := 1 }

/-- Thirty-two `PushFront(7)`, thirty-two `PopBack()`, then `PushFront(99)`. -/
def callsB : List (Call Int) :=
  List.replicate 32 (Call.pushFront 7) ++ List.replicate 32 Call.popBack ++ [Call.pushFront 99]

/-- What the calls of `callsB` return. -/
def retsB : List (Ret Int) :=
  List.replicate 32 Ret.unit ++ List.replicate 32 (Ret.pair (7, true)) ++ [Ret.unit]

/-- The state after `callsB`: one element, stored in block 0, and the tail offset at -1. -/
def stateB : SegmentedSlice Int :=
  { blocks := [List.replicate 63 0 ++ [99], List.replicate 32 7 ++ List.replicate 32 0]
    headBlock := 0
    headOffset := 63
    tailBlock := 1
    tailOffset := -1
    length := 1 }

/-- The calls of the example: `PushFront(4); PushBack(5); PushFront(3); PushBack(6)`. -/
def callsEx : List (Call Int) :=
  [Call.pushFront 4, Call.pushBack 5, Call.pushFront 3, Call.pushBack 6]

/-- Thirty-two `PushBack(7)` followed by thirty-two `PopFront()`: the deque is empty again. -/
def callsDrain : List (Call Int) :=
  List.replicate 32 (Call.pushBack 7) ++ List.replicate 32 Call.popFront

/-- What the calls of `callsDrain` return. -/
def retsDrain : List (Ret Int) :=
  List.replicate 32 Ret.unit ++ List.replicate 32 (Ret.pair (7, true))

/-- The state after `callsDrain`: empty, one block, the cursors where the last pop left them. -/
def stateDrained : SegmentedSlice Int :=
  { blocks := [List.replicate 32 0 ++ List.replicate 32 7]
    headBlock := 0
    headOffset := 64
    tailBlock := 0
    tailOffset := 63
    length := 0 }

/-- Number of `PushBack` calls in a sequence of pushes. -/
def numBack : List (Push T) → Nat
  | [] => 0
  | .back _ :: ps => numBack ps + 1
  | .front _ :: ps => numBack ps

/-- Number of `PushFront` calls in a sequence of pushes. -/
def numFront : List (Push T) → Nat
  | [] => 0
  | .back _ :: ps => numFront ps
  | .front _ :: ps => numFront ps + 1

end Deque

/-!
# Doubly linked list of `container/lists/linked_list.go`

`DoublyLinkedList[T]` is embedded with an explicit heap: a pointer `*doublyLinkedListNode[T]`
is an `Option Nat` (`none` is `nil`, `some a` is the address `a`), the heap is the list of all
nodes allocated so far, and `&doublyLinkedListNode[T]{data: data}` appends a node to it.
Dereferencing `nil` is a panic, the result `none`.  The type `List[T]` of `list.go` has the same
fields and, method for method, the same text for `PushBack`, `PushFront`, `Insert`, `Front`,
`Back`, `Slice` and `Size`; its `At` is the `Get` of `linked_list.go`.
-/

namespace Lists

/-- The struct `doublyLinkedListNode[T]` (`listNode[T]` in `list.go`). -/
structure doublyLinkedListNode (T : Type) where
  data : T
  next : Option Nat
  prev : Option Nat
deriving DecidableEq, Repr

/-- The struct `DoublyLinkedList[T]` (`List[T]` in `list.go`), with the heap its pointers point
into. -/
structure DoublyLinkedList (T : Type) where
  nodes : List (doublyLinkedListNode T)
  head : Option Nat
  tail : Option Nat
  count : Int
deriving DecidableEq, Repr

variable {T : Type} [Inhabited T]

/-- Dereferencing a pointer: `nil` panics. -/
def load (nodes : List (doublyLinkedListNode T)) (p : Option Nat) :
    Option (doublyLinkedListNode T) :=
  match p with
  | none => none
  | some a => nodes[a]?

/-- The assignment `p.next = q`: `nil` panics. -/
def storeNext (nodes : List (doublyLinkedListNode T)) (p q : Option Nat) :
    Option (List (doublyLinkedListNode T)) :=
  match p with
  | none => none
  | some a =>
    match nodes[a]? with
    | none => none
    | some nd => some (nodes.set a { nd with next := q })

/-- The assignment `p.prev = q`: `nil` panics. -/
def storePrev (nodes : List (doublyLinkedListNode T)) (p q : Option Nat) :
    Option (List (doublyLinkedListNode T)) :=
  match p with
  | none => none
  | some a =>
    match nodes[a]? with
    | none => none
    | some nd => some (nodes.set a { nd with prev := q })

/-- The empty list `&DoublyLinkedList[T]{}`. -/
def emptyList (T : Type) : DoublyLinkedList T :=
  { nodes := [], head := none, tail := none, count := 0 }

/-- The method `PushBack`: `none` is a panic, otherwise the list after the call. -/
def PushBack (l : DoublyLinkedList T) (data : T) : Option (DoublyLinkedList T) :=
  let newNode := l.nodes.length
  let nodes1 := l.nodes ++ [{ data := data, next := none, prev := none }]
  if l.head = none then
    some { nodes := nodes1, head := some newNode, tail := some newNode, count := l.count + 1 }
  else
    match storeNext nodes1 l.tail (some newNode) with
    | none => none
    | some nodes2 =>
      match storePrev nodes2 (some newNode) l.tail with
      | none => none
      | some nodes3 =>
        some { nodes := nodes3, head := l.head, tail := some newNode, count := l.count + 1 }

/-- The method `PushFront`: `none` is a panic, otherwise the list after the call. -/
def PushFront (l : DoublyLinkedList T) (data : T) : Option (DoublyLinkedList T) :=
  let newNode := l.nodes.length
  let nodes1 := l.nodes ++ [{ data := data, next := none, prev := none }]
  if l.head = none then
    some { nodes := nodes1, head := some newNode, tail := some newNode, count := l.count + 1 }
  else
    match storeNext nodes1 (some newNode) l.head with
    | none => none
    | some nodes2 =>
      match storePrev nodes2 l.head (some newNode) with
      | none => none
      | some nodes3 =>
        some { nodes := nodes3, head := some newNode, tail := l.tail, count := l.count + 1 }

/-- The constructor `NewList(vals ...)`: `PushBack` of every value, in order (`NewList()` of
`list.go` is `NewList []`). -/
def NewList (vals : List T) : Option (DoublyLinkedList T) :=
  vals.foldl (fun r v => match r with
    | none => none
    | some l => PushBack l v) (some (emptyList T))

/-- The loop `for i := 0; i < pos; i++ { current = current.next }`, `k` iterations from
`current`: the pointer reached; `none` is a panic. -/
def walk (nodes : List (doublyLinkedListNode T)) : Nat → Option Nat → Option (Option Nat)
  | 0, current => some current
  | k + 1, current =>
    match load nodes current with
    | none => none
    | some nd => walk nodes k nd.next

/-- The method `Insert`: `none` is a panic, otherwise the list after the call. -/
def Insert (l : DoublyLinkedList T) (pos : Int) (data : T) : Option (DoublyLinkedList T) :=
  if pos < 0 ∨ pos ≥ l.count then some l
  else if pos = 0 then PushFront l data
  else if pos = l.count - 1 then PushBack l data
  else
    let newNode := l.nodes.length
    let nodes1 := l.nodes ++ [{ data := data, next := none, prev := none }]
    match walk nodes1 pos.toNat l.head with
    | none => none
    | some current =>
      match load nodes1 current with
      | none => none
      | some cur =>
        match storeNext nodes1 (some newNode) cur.next with
        | none => none
        | some nodes2 =>
          match storePrev nodes2 (some newNode) current with
          | none => none
          | some nodes3 =>
            match load nodes3 current with
            | none => none
            | some cur3 =>
              match storePrev nodes3 cur3.next (some newNode) with
              | none => none
              | some nodes4 =>
                match storeNext nodes4 current (some newNode) with
                | none => none
                | some nodes5 =>
                  some { nodes := nodes5, head := l.head, tail := l.tail,
                         count := l.count + 1 }

/-- The method `Front`. -/
def Front (l : DoublyLinkedList T) : Option T :=
  if l.head = none then some default
  else (load l.nodes l.head).map (fun nd => nd.data)

/-- The method `Back`. -/
def Back (l : DoublyLinkedList T) : Option T :=
  if l.tail = none then some default
  else (load l.nodes l.tail).map (fun nd => nd.data)

/-- The method `Get` (`At` in `list.go`). -/
def Get (l : DoublyLinkedList T) (pos : Int) : Option T :=
  if pos < 0 ∨ pos ≥ l.count then some default
  else
    match walk l.nodes pos.toNat l.head with
    | none => none
    | some current => (load l.nodes current).map (fun nd => nd.data)

/-- The method `At` of `list.go`: the same text as `Get`. -/
def At (l : DoublyLinkedList T) (pos : Int) : Option T :=
  Get l pos

/-- The method `Size`. -/
def Size (l : DoublyLinkedList T) : Int :=
  l.count

/-- The loop of `Slice`, `for current != nil { slice = append(slice, current.data); current =
current.next }`, with `k` iterations allowed. -/
def sliceLoop (nodes : List (doublyLinkedListNode T)) :
    Nat → Option Nat → List T → Option (List T)
  | _, none, slice => some slice
  | 0, some _, _ => none
  | k + 1, some a, slice =>
    match nodes[a]? with
    | none => none
    | some nd => sliceLoop nodes k nd.next (slice ++ [nd.data])

/-- The method `Slice`.  The loop is allowed one iteration per allocated node: a walk of more
nodes than the heap holds has visited a node twice and, the loop being deterministic, the Go
loop never ends; so `none` is a panic or a loop that does not return. -/
def Slice (l : DoublyLinkedList T) : Option (List T) :=
  sliceLoop l.nodes l.nodes.length l.head []

/-- Lists built from the empty list by `PushBack` and `PushFront` calls. -/
inductive Built : DoublyLinkedList T → Prop where
  | empty : Built (emptyList T)
  | pushBack {l l1 : DoublyLinkedList T} (v : T) : Built l → PushBack l v = some l1 → Built l1
  | pushFront {l l1 : DoublyLinkedList T} (v : T) :
      Built l → PushFront l v = some l1 → Built l1

/-- What `Slice` reads of the node at address `a`: its data and its `next` pointer. -/
def fview (nodes : List (doublyLinkedListNode T)) (a : Nat) : Option (T × Option Nat) :=
  (nodes[a]?).map (fun nd => (nd.data, nd.next))

/-- The nodes at `addrs` hold `vals` and are linked by `next` in that order, the last one to
`nil`. -/
def Fwd (nodes : List (doublyLinkedListNode T)) : List Nat → List T → Prop
  | [], [] => True
  | a :: rest, v :: vs => fview nodes a = some (v, rest.head?) ∧ Fwd nodes rest vs
  | _, _ => False

/-- The list `l` is the chain of nodes `addrs` holding `vals`, from `head` to `tail`. -/
def Rep (l : DoublyLinkedList T) (addrs : List Nat) (vals : List T) : Prop :=
  Fwd l.nodes addrs vals ∧ l.head = addrs.head? ∧ l.tail = addrs.getLast? ∧
    l.count = vals.length

/-- The list of the test `TestList_General` before its `Insert`: `PushBack(2); PushBack(3);
PushBack(5); PushFront(1)`. -/
def listEx : DoublyLinkedList Int :=
  { nodes := [⟨2, some 1, some 3⟩, ⟨3, some 2, some 0⟩, ⟨5, none, some 1⟩, ⟨1, some 0, none⟩]
    head := some 3
    tail := some 2
    count := 4 }

/-- The list of the test after `Insert(2, 4)`. -/
def listExInserted : DoublyLinkedList Int :=
  { nodes := [⟨2, some 1, some 3⟩, ⟨3, some 4, some 0⟩, ⟨5, none, some 4⟩, ⟨1, some 0, none⟩,
              ⟨4, some 2, some 1⟩]
    head := some 3
    tail := some 2
    count := 5 }

end Lists

namespace Deque

variable {T : Type} [Inhabited T]

/-! ## Slots of a block array -/

theorem slot_set {α : Type} (blocks : List (List α)) (b o : Nat) (blk : List α) (v : α)
    (hb : blocks[b]? = some blk) (ho : o < blk.length) (ho64 : o < 64) (a : Nat) :
    slot (blocks.set b (blk.set o v)) a = if a = 64 * b + o then some v else slot blocks a := by
  have hlt : b < blocks.length := by
    rcases List.getElem?_eq_some.1 hb with ⟨h, -⟩
    exact h
  unfold slot
  by_cases h1 : a / 64 = b
  · subst h1
    rw [List.getElem?_set_self hlt, hb]
    simp only
    by_cases h2 : a % 64 = o
    · subst h2
      rw [List.getElem?_set_self ho, if_pos (by omega)]
    · rw [List.getElem?_set_ne (Ne.symm h2), if_neg (by omega)]
  · rw [List.getElem?_set_ne (Ne.symm h1), if_neg (by omega)]

theorem slot_append {α : Type} (blocks : List (List α)) (nb : List α) (a : Nat)
    (h : a / 64 < blocks.length) : slot (blocks ++ [nb]) a = slot blocks a := by
  unfold slot
  rw [List.getElem?_append_left h]

theorem slot_cons {α : Type} (blocks : List (List α)) (nb : List α) (a : Nat) :
    slot (nb :: blocks) (a + 64) = slot blocks a := by
  unfold slot
  have h1 : (a + 64) / 64 = a / 64 + 1 := by omega
  have h2 : (a + 64) % 64 = a % 64 := by omega
  rw [h1, h2, List.getElem?_cons_succ]

theorem slot_dropLast {α : Type} (blocks : List (List α)) (a : Nat)
    (h : a / 64 + 1 < blocks.length) : slot blocks.dropLast a = slot blocks a := by
  unfold slot
  rw [List.dropLast_eq_take, List.getElem?_take_of_lt (by omega)]

/-- Reading `blocks[b][o]` with an offset inside a block is reading absolute slot `64*b + o`. -/
theorem getSlot_eq_slot {α : Type} (blocks : List (List α)) (b o : Int)
    (hb : 0 ≤ b) (ho : 0 ≤ o) (ho64 : o < 64) :
    getSlot blocks b o = slot blocks (64 * b.toNat + o.toNat) := by
  unfold getSlot slot index?
  have e1 : (64 * b.toNat + o.toNat) / 64 = b.toNat := by omega
  have e2 : (64 * b.toNat + o.toNat) % 64 = o.toNat := by omega
  rw [e1, e2, if_pos hb]
  cases blocks[b.toNat]? with
  | none => rfl
  | some blk => simp only [if_pos ho]

/-- Reading outside a block of 64 slots panics. -/
theorem getSlot_out {α : Type} (blocks : List (List α)) (b o : Int)
    (hsz : ∀ blk ∈ blocks, blk.length = 64) (ho : o < 0 ∨ 64 ≤ o) :
    getSlot blocks b o = none := by
  unfold getSlot
  cases h : index? blocks b with
  | none => rfl
  | some blk =>
    simp only
    unfold index? at h ⊢
    split at h
    · have hmem : blk ∈ blocks := List.getElem?_mem h
      have hl := hsz blk hmem
      split
      · rw [List.getElem?_eq_none_iff]
        omega
      · rfl
    · cases h

/-- Writing `blocks[b][o] = v` inside the block array succeeds and changes one slot. -/
theorem setSlot_spec {α : Type} (blocks : List (List α)) (b o : Int) (v : α)
    (hsz : ∀ blk ∈ blocks, blk.length = 64)
    (hb : 0 ≤ b) (hb2 : b < blocks.length) (ho : 0 ≤ o) (ho64 : o < 64) :
    ∃ bs, setSlot blocks b o v = some bs ∧ bs.length = blocks.length ∧
      (∀ blk ∈ bs, blk.length = 64) ∧
      ∀ a, slot bs a = if a = 64 * b.toNat + o.toNat then some v else slot blocks a := by
  have hlt : b.toNat < blocks.length := by omega
  have hget : blocks[b.toNat]? = some blocks[b.toNat] := List.getElem?_eq_getElem hlt
  have hl : (blocks[b.toNat]).length = 64 := hsz _ (List.getElem_mem hlt)
  refine ⟨blocks.set b.toNat ((blocks[b.toNat]).set o.toNat v), ?_, ?_, ?_, ?_⟩
  · unfold setSlot index?
    rw [if_pos hb, hget]
    simp only
    rw [if_pos (by omega)]
  · simp
  · intro blk hblk
    rcases List.mem_or_eq_of_mem_set hblk with h | h
    · exact hsz blk h
    · rw [h, List.length_set]
      exact hl
  · intro a
    exact slot_set blocks b.toNat o.toNat _ v hget (by omega) (by omega) a

/-- Inside the range, `At` reads absolute slot `headOffset + i`. -/
theorem At_eq_slot (d : SegmentedSlice T) (hI : Inv d) (i : Nat) (hi : (i : Int) < d.length) :
    At d i = (slot d.blocks (d.headOffset.toNat + i)).map (fun v => (v, true)) := by
  have hlo := hI.headLo
  have h0 : 0 ≤ d.headOffset + i := by omega
  unfold At
  rw [if_neg (by omega)]
  simp only [blockSize, hI.headBlock, zero_add,
    Int.tdiv_eq_ediv h0 (by decide : (0 : Int) ≤ 64),
    Int.tmod_eq_emod h0 (by decide : (0 : Int) ≤ 64)]
  rw [getSlot_eq_slot _ _ _ (by omega) (by omega) (by omega)]
  have e : 64 * ((d.headOffset + i) / 64).toNat + ((d.headOffset + i) % 64).toNat
      = d.headOffset.toNat + i := by omega
  rw [e]
  cases slot d.blocks (d.headOffset.toNat + i) <;> rfl

/-! ## The four mutators on states satisfying the invariant -/

theorem newBlock_length : (newBlock T).length = 64 := by
  simp [newBlock, blockSize]

theorem inv_new : Inv (NewSegmentedSlice T) := by
  refine ⟨rfl, by show (0 : Int) ≤ 0; decide, by show ((1 : Nat) : Int) = 0 + 1; decide, ?_,
    by show (0 : Int) ≤ Int.tdiv 64 2; decide, by show Int.tdiv 64 2 ≤ (64 : Int); decide,
    by show (-1 : Int) ≤ Int.tdiv 64 2 - 1; decide, by show Int.tdiv 64 2 - 1 ≤ (63 : Int); decide,
    by show (0 : Int) = 0 * 64 + (Int.tdiv 64 2 - 1) - Int.tdiv 64 2 + 1; decide,
    by show (0 : Int) ≤ 0; decide⟩
  intro b hb
  simp only [NewSegmentedSlice, List.mem_singleton] at hb
  rw [hb]
  exact newBlock_length

theorem stores_new : Stores (NewSegmentedSlice T) [] := by
  refine ⟨rfl, ?_⟩
  intro i hi
  simp at hi

/-- From a state satisfying the invariant, `PushBack` returns, and appends to the stored list. -/
theorem pushBack_spec (d : SegmentedSlice T) (v : T) (hI : Inv d) :
    ∃ d1, PushBack d v = some d1 ∧ Inv d1 ∧ d1.headOffset = d.headOffset ∧
      0 ≤ d1.tailOffset ∧ d1.length = d.length + 1 ∧
      (d1.blocks.length : Int) = d.blocks.length + (if d.tailOffset = 63 then 1 else 0) ∧
      ∀ L, Stores d L → Stores d1 (L ++ [v]) := by
  obtain ⟨hhb, htb, hbl, hsz, hhl, hhh, htl, hth, hlen, hnn⟩ := hI
  by_cases hc : d.tailOffset + 1 = blockSize
  · have hto : d.tailOffset = 63 := by
      unfold blockSize at hc
      omega
    have hsz1 : ∀ blk ∈ d.blocks ++ [newBlock T], blk.length = 64 := by
      intro blk hblk
      rcases List.mem_append.1 hblk with h | h
      · exact hsz blk h
      · rw [List.mem_singleton] at h
        rw [h]
        exact newBlock_length
    have hl1 : (d.blocks ++ [newBlock T]).length = d.blocks.length + 1 := by simp
    obtain ⟨bs, hset, hbsl, hbsz, hslot⟩ :=
      setSlot_spec (d.blocks ++ [newBlock T]) (d.tailBlock + 1) 0 v hsz1
        (by omega) (by omega) (by omega) (by omega)
    refine ⟨{ blocks := bs, headBlock := d.headBlock, headOffset := d.headOffset,
              tailBlock := d.tailBlock + 1, tailOffset := 0, length := d.length + 1 },
            ?_, ?_, rfl, le_refl _, rfl, ?_, ?_⟩
    · unfold PushBack
      simp only [if_pos hc, hset]
    · exact ⟨hhb, by show 0 ≤ d.tailBlock + 1; omega,
        by show (bs.length : Int) = d.tailBlock + 1 + 1; omega, hbsz, hhl, hhh,
        by show (-1 : Int) ≤ 0; decide, by show (0 : Int) ≤ 63; decide,
        by show d.length + 1 = (d.tailBlock + 1) * 64 + 0 - d.headOffset + 1; omega,
        by show 0 ≤ d.length + 1; omega⟩
    · show (bs.length : Int) = _
      rw [if_pos hto]
      omega
    · rintro L ⟨hL, hS⟩
      refine ⟨by show d.length + 1 = _; simp; omega, ?_⟩
      intro i hi
      show slot bs (d.headOffset.toNat + i) = _
      rw [hslot]
      rw [List.length_append, List.length_singleton] at hi
      by_cases hiL : i < L.length
      · rw [if_neg (by omega), slot_append _ _ _ (by omega), hS i hiL,
          List.getElem?_append_left hiL]
      · have hi2 : i = L.length := by omega
        rw [if_pos (by omega), hi2]
        simp
  · have hto : d.tailOffset ≠ 63 := by
      unfold blockSize at hc
      omega
    obtain ⟨bs, hset, hbsl, hbsz, hslot⟩ :=
      setSlot_spec d.blocks d.tailBlock (d.tailOffset + 1) v hsz
        (by omega) (by omega) (by omega) (by omega)
    refine ⟨{ blocks := bs, headBlock := d.headBlock, headOffset := d.headOffset,
              tailBlock := d.tailBlock, tailOffset := d.tailOffset + 1,
              length := d.length + 1 },
            ?_, ?_, rfl, by show 0 ≤ d.tailOffset + 1; omega, rfl, ?_, ?_⟩
    · unfold PushBack
      simp only [if_neg hc, hset]
    · exact ⟨hhb, htb, by show (bs.length : Int) = d.tailBlock + 1; omega, hbsz, hhl, hhh,
        by show -1 ≤ d.tailOffset + 1; omega, by show d.tailOffset + 1 ≤ 63; omega,
        by show d.length + 1 = d.tailBlock * 64 + (d.tailOffset + 1) - d.headOffset + 1; omega,
        by show 0 ≤ d.length + 1; omega⟩
    · show (bs.length : Int) = _
      rw [if_neg hto]
      omega
    · rintro L ⟨hL, hS⟩
      refine ⟨by show d.length + 1 = _; simp; omega, ?_⟩
      intro i hi
      show slot bs (d.headOffset.toNat + i) = _
      rw [hslot]
      rw [List.length_append, List.length_singleton] at hi
      by_cases hiL : i < L.length
      · rw [if_neg (by omega), hS i hiL, List.getElem?_append_left hiL]
      · have hi2 : i = L.length := by omega
        rw [if_pos (by omega), hi2]
        simp

/-- From a state satisfying the invariant, `PushFront` returns, and prepends to the stored
list. -/
theorem pushFront_spec (d : SegmentedSlice T) (v : T) (hI : Inv d) :
    ∃ d1, PushFront d v = some d1 ∧ Inv d1 ∧ d1.tailOffset = d.tailOffset ∧
      d1.headOffset < 64 ∧ d1.length = d.length + 1 ∧
      (d1.blocks.length : Int) = d.blocks.length + (if d.headOffset = 0 then 1 else 0) ∧
      ∀ L, Stores d L → Stores d1 (v :: L) := by
  obtain ⟨hhb, htb, hbl, hsz, hhl, hhh, htl, hth, hlen, hnn⟩ := hI
  have hbs63 : (blockSize - 1).toNat = 63 := by decide
  by_cases hc : d.headOffset = 0
  · have hsz1 : ∀ blk ∈ newBlock T :: d.blocks, blk.length = 64 := by
      intro blk hblk
      rcases List.mem_cons.1 hblk with h | h
      · rw [h]
        exact newBlock_length
      · exact hsz blk h
    have hl1 : (newBlock T :: d.blocks).length = d.blocks.length + 1 := by simp
    obtain ⟨bs, hset, hbsl, hbsz, hslot⟩ :=
      setSlot_spec (newBlock T :: d.blocks) 0 (blockSize - 1) v hsz1
        (by omega) (by omega) (by decide) (by decide)
    refine ⟨{ blocks := bs, headBlock := 0, headOffset := blockSize - 1,
              tailBlock := d.tailBlock + 1, tailOffset := d.tailOffset,
              length := d.length + 1 },
            ?_, ?_, rfl, by show blockSize - 1 < 64; decide, rfl, ?_, ?_⟩
    · unfold PushFront
      simp only [if_pos hc, hset]
    · exact ⟨rfl, by show 0 ≤ d.tailBlock + 1; omega,
        by show (bs.length : Int) = d.tailBlock + 1 + 1; omega, hbsz,
        by show 0 ≤ blockSize - 1; decide, by show blockSize - 1 ≤ 64; decide, htl, hth,
        by
          show d.length + 1 = (d.tailBlock + 1) * 64 + d.tailOffset - (blockSize - 1) + 1
          unfold blockSize
          omega,
        by show 0 ≤ d.length + 1; omega⟩
    · show (bs.length : Int) = _
      rw [if_pos hc]
      omega
    · rintro L ⟨hL, hS⟩
      refine ⟨by show d.length + 1 = _; simp; omega, ?_⟩
      intro i hi
      show slot bs ((blockSize - 1).toNat + i) = _
      rw [hslot, hbs63]
      cases i with
      | zero => simp
      | succ j =>
        rw [List.length_cons] at hi
        have e : 63 + (j + 1) = j + 64 := by omega
        rw [if_neg (by simp), e, slot_cons, List.getElem?_cons_succ, ← hS j (by omega), hc]
        simp
  · obtain ⟨bs, hset, hbsl, hbsz, hslot⟩ :=
      setSlot_spec d.blocks d.headBlock (d.headOffset - 1) v hsz
        (by omega) (by omega) (by omega) (by omega)
    refine ⟨{ blocks := bs, headBlock := d.headBlock, headOffset := d.headOffset - 1,
              tailBlock := d.tailBlock, tailOffset := d.tailOffset,
              length := d.length + 1 },
            ?_, ?_, rfl, by show d.headOffset - 1 < 64; omega, rfl, ?_, ?_⟩
    · unfold PushFront
      simp only [if_neg hc, hset]
    · exact ⟨hhb, htb, by show (bs.length : Int) = d.tailBlock + 1; omega, hbsz,
        by show 0 ≤ d.headOffset - 1; omega, by show d.headOffset - 1 ≤ 64; omega, htl, hth,
        by show d.length + 1 = d.tailBlock * 64 + d.tailOffset - (d.headOffset - 1) + 1; omega,
        by show 0 ≤ d.length + 1; omega⟩
    · show (bs.length : Int) = _
      rw [if_neg hc]
      omega
    · rintro L ⟨hL, hS⟩
      refine ⟨by show d.length + 1 = _; simp; omega, ?_⟩
      intro i hi
      show slot bs ((d.headOffset - 1).toNat + i) = _
      rw [hslot]
      cases i with
      | zero =>
        rw [if_pos (by omega)]
        simp
      | succ j =>
        rw [List.length_cons] at hi
        have e : (d.headOffset - 1).toNat + (j + 1) = d.headOffset.toNat + j := by omega
        rw [if_neg (by omega), e, List.getElem?_cons_succ, hS j (by omega)]

/-- From a non-empty state satisfying the invariant whose head offset is inside its block,
`PopFront` returns the first stored element and removes it. -/
theorem popFront_spec (d : SegmentedSlice T) (hI : Inv d) (hh : d.headOffset < 64)
    (x : T) (L : List T) (hS : Stores d (x :: L)) :
    ∃ d1, PopFront d = some ((x, true), d1) ∧ Inv d1 ∧ Stores d1 L ∧
      d1.length = d.length - 1 ∧ (d1.headOffset < 64 ∨ d1.length = 0) ∧
      d1.tailOffset = d.tailOffset ∧ d1.blocks.length ≤ d.blocks.length := by
  obtain ⟨hhb, htb, hbl, hsz, hhl, hhh, htl, hth, hlen, hnn⟩ := hI
  obtain ⟨hL, hSl⟩ := hS
  rw [List.length_cons] at hL
  have hne : ¬ d.length = 0 := by omega
  have hget : getSlot d.blocks d.headBlock d.headOffset = some x := by
    rw [getSlot_eq_slot _ _ _ (by omega) hhl hh]
    have e : 64 * d.headBlock.toNat + d.headOffset.toNat = d.headOffset.toNat + 0 := by omega
    rw [e, hSl 0 (by simp)]
    simp
  by_cases hc : d.headOffset + 1 = blockSize ∧ d.headBlock < d.tailBlock
  · obtain ⟨hc1, hc2⟩ := hc
    unfold blockSize at hc1
    rcases hbk : d.blocks with _ | ⟨b0, rest⟩
    · rw [hbk] at hbl
      simp at hbl
      omega
    · rw [hbk] at hbl hsz hSl hget
      rw [List.length_cons] at hbl
      refine ⟨{ blocks := rest, headBlock := 0, headOffset := 0,
                tailBlock := d.tailBlock - 1, tailOffset := d.tailOffset,
                length := d.length - 1 },
              ?_, ?_, ?_, rfl, Or.inl (by show (0 : Int) < 64; decide), rfl, ?_⟩
      · unfold PopFront
        have hc3 : d.headOffset + 1 = blockSize ∧ d.headBlock < d.tailBlock :=
          ⟨hc1, hc2⟩
        simp only [if_neg hne, hget, if_pos hc3, hbk]
      · exact ⟨rfl, by show 0 ≤ d.tailBlock - 1; omega,
          by show (rest.length : Int) = d.tailBlock - 1 + 1; omega,
          fun b hb => hsz b (List.mem_cons_of_mem _ hb),
          by show (0 : Int) ≤ 0; decide, by show (0 : Int) ≤ 64; decide, htl, hth,
          by show d.length - 1 = (d.tailBlock - 1) * 64 + d.tailOffset - 0 + 1; omega,
          by show 0 ≤ d.length - 1; omega⟩
      · refine ⟨by show d.length - 1 = _; omega, ?_⟩
        intro i hi
        show slot rest ((0 : Int).toNat + i) = _
        have e : (0 : Int).toNat + i = i := by simp
        have e2 : d.headOffset.toNat + (i + 1) = i + 64 := by omega
        rw [e, ← slot_cons rest b0 i, ← e2, hSl (i + 1) (by simp; omega),
          List.getElem?_cons_succ]
      · show rest.length ≤ (b0 :: rest).length
        simp
  · refine ⟨{ blocks := d.blocks, headBlock := d.headBlock, headOffset := d.headOffset + 1,
              tailBlock := d.tailBlock, tailOffset := d.tailOffset,
              length := d.length - 1 },
            ?_, ?_, ?_, rfl, ?_, rfl, le_refl _⟩
    · unfold PopFront
      simp only [if_neg hne, hget, if_neg hc]
    · exact ⟨hhb, htb, hbl, hsz, by show 0 ≤ d.headOffset + 1; omega,
        by show d.headOffset + 1 ≤ 64; omega, htl, hth,
        by show d.length - 1 = d.tailBlock * 64 + d.tailOffset - (d.headOffset + 1) + 1; omega,
        by show 0 ≤ d.length - 1; omega⟩
    · refine ⟨by show d.length - 1 = _; omega, ?_⟩
      intro i hi
      show slot d.blocks ((d.headOffset + 1).toNat + i) = _
      have e : (d.headOffset + 1).toNat + i = d.headOffset.toNat + (i + 1) := by omega
      rw [e, hSl (i + 1) (by simp; omega), List.getElem?_cons_succ]
    · show d.headOffset + 1 < 64 ∨ d.length - 1 = 0
      unfold blockSize at hc
      omega

/-- From a non-empty state satisfying the invariant whose tail offset is inside its block,
`PopBack` returns the last stored element and removes it. -/
theorem popBack_spec (d : SegmentedSlice T) (hI : Inv d) (ht : 0 ≤ d.tailOffset)
    (x : T) (L : List T) (hS : Stores d (L ++ [x])) :
    ∃ d1, PopBack d = some ((x, true), d1) ∧ Inv d1 ∧ Stores d1 L ∧
      d1.length = d.length - 1 ∧ (0 ≤ d1.tailOffset ∨ d1.length = 0) ∧
      d1.headOffset = d.headOffset ∧ d1.blocks.length ≤ d.blocks.length := by
  obtain ⟨hhb, htb, hbl, hsz, hhl, hhh, htl, hth, hlen, hnn⟩ := hI
  obtain ⟨hL, hSl⟩ := hS
  rw [List.length_append, List.length_singleton] at hL hSl
  have hne : ¬ d.length = 0 := by omega
  have hget : getSlot d.blocks d.tailBlock d.tailOffset = some x := by
    rw [getSlot_eq_slot _ _ _ htb ht (by omega)]
    have e : 64 * d.tailBlock.toNat + d.tailOffset.toNat = d.headOffset.toNat + L.length := by
      omega
    rw [e, hSl L.length (by omega)]
    simp
  by_cases hc : d.tailOffset - 1 < 0 ∧ d.tailBlock > d.headBlock
  · obtain ⟨hc1, hc2⟩ := hc
    have hbne : ¬ d.blocks.length = 0 := by omega
    refine ⟨{ blocks := d.blocks.dropLast, headBlock := d.headBlock,
              headOffset := d.headOffset, tailBlock := d.tailBlock - 1,
              tailOffset := blockSize - 1, length := d.length - 1 },
            ?_, ?_, ?_, rfl, Or.inl (by show (0 : Int) ≤ blockSize - 1; decide), rfl, ?_⟩
    · unfold PopBack
      have hc3 : d.tailOffset - 1 < 0 ∧ d.tailBlock > d.headBlock := ⟨hc1, hc2⟩
      simp only [if_neg hne, hget, if_pos hc3, if_neg hbne]
    · exact ⟨hhb, by show 0 ≤ d.tailBlock - 1; omega,
        by
          show (d.blocks.dropLast.length : Int) = d.tailBlock - 1 + 1
          rw [List.length_dropLast]
          omega,
        fun b hb => hsz b (List.mem_of_mem_dropLast hb), hhl, hhh,
        by show (-1 : Int) ≤ blockSize - 1; decide, by show blockSize - 1 ≤ (63 : Int); decide,
        by
          show d.length - 1 = (d.tailBlock - 1) * 64 + (blockSize - 1) - d.headOffset + 1
          unfold blockSize
          omega,
        by show 0 ≤ d.length - 1; omega⟩
    · refine ⟨by show d.length - 1 = _; omega, ?_⟩
      intro i hi
      show slot d.blocks.dropLast (d.headOffset.toNat + i) = _
      rw [slot_dropLast _ _ (by omega), hSl i (by omega), List.getElem?_append_left hi]
    · show d.blocks.dropLast.length ≤ d.blocks.length
      rw [List.length_dropLast]
      omega
  · refine ⟨{ blocks := d.blocks, headBlock := d.headBlock, headOffset := d.headOffset,
              tailBlock := d.tailBlock, tailOffset := d.tailOffset - 1,
              length := d.length - 1 },
            ?_, ?_, ?_, rfl, ?_, rfl, le_refl _⟩
    · unfold PopBack
      simp only [if_neg hne, hget, if_neg hc]
    · exact ⟨hhb, htb, hbl, hsz, hhl, hhh, by show -1 ≤ d.tailOffset - 1; omega,
        by show d.tailOffset - 1 ≤ 63; omega,
        by show d.length - 1 = d.tailBlock * 64 + (d.tailOffset - 1) - d.headOffset + 1; omega,
        by show 0 ≤ d.length - 1; omega⟩
    · refine ⟨by show d.length - 1 = _; omega, ?_⟩
      intro i hi
      show slot d.blocks (d.headOffset.toNat + i) = _
      rw [hSl i (by omega), List.getElem?_append_left hi]
    · show 0 ≤ d.tailOffset - 1 ∨ d.length - 1 = 0
      omega

/-! ## Every returning call agrees with the reference list -/

theorem popFront_empty (d : SegmentedSlice T) (h : d.length = 0) :
    PopFront d = some ((default, false), d) := by
  unfold PopFront
  rw [if_pos h]

theorem popBack_empty (d : SegmentedSlice T) (h : d.length = 0) :
    PopBack d = some ((default, false), d) := by
  unfold PopBack
  rw [if_pos h]

/-- On a non-empty state whose head offset has run off its block, `PopFront` panics. -/
theorem popFront_panics (d : SegmentedSlice T) (hI : Inv d) (hne : d.length ≠ 0)
    (hh : ¬ d.headOffset < 64) : PopFront d = none := by
  unfold PopFront
  rw [if_neg hne, getSlot_out _ _ _ hI.blockSz (Or.inr (by omega))]

/-- On a non-empty state whose tail offset is `-1`, `PopBack` panics. -/
theorem popBack_panics (d : SegmentedSlice T) (hI : Inv d) (hne : d.length ≠ 0)
    (ht : ¬ 0 ≤ d.tailOffset) : PopBack d = none := by
  unfold PopBack
  rw [if_neg hne, getSlot_out _ _ _ hI.blockSz (Or.inl (by omega))]

/-- Inside the range, `At` returns the stored element. -/
theorem at_of_stores (d : SegmentedSlice T) (L : List T) (hI : Inv d) (hS : Stores d L)
    (i : Nat) (hi : i < L.length) : At d i = some (L[i], true) := by
  rw [At_eq_slot d hI i (by rw [hS.1]; omega), hS.2 i hi, List.getElem?_eq_getElem hi]
  rfl

/-- Outside the range, `At` returns the zero value and `false`. -/
theorem at_out (d : SegmentedSlice T) (i : Int) (h : i < 0 ∨ i ≥ d.length) :
    At d i = some (default, false) := by
  unfold At
  rw [if_pos h]

theorem refStep_at_snd (L : List T) (i : Int) : (refStep L (Call.atIndex i)).2 = L := by
  simp only [refStep]
  by_cases h : 0 ≤ i
  · rw [if_pos h]
    cases L[i.toNat]? <;> rfl
  · rw [if_neg h]

theorem step_refines (d : SegmentedSlice T) (L : List T) (hI : Inv d) (hS : Stores d L)
    (c : Call T) (r : Ret T) (d1 : SegmentedSlice T) (h : step d c = some (r, d1)) :
    Inv d1 ∧ Stores d1 (refStep L c).2 ∧ r = (refStep L c).1 := by
  cases c with
  | pushBack v =>
    obtain ⟨d2, h2, hI2, -, -, -, -, hS2⟩ := pushBack_spec d v hI
    simp only [step, h2, Option.map_some', Option.some.injEq, Prod.mk.injEq] at h
    obtain ⟨rfl, rfl⟩ := h
    exact ⟨hI2, hS2 L hS, rfl⟩
  | pushFront v =>
    obtain ⟨d2, h2, hI2, -, -, -, -, hS2⟩ := pushFront_spec d v hI
    simp only [step, h2, Option.map_some', Option.some.injEq, Prod.mk.injEq] at h
    obtain ⟨rfl, rfl⟩ := h
    exact ⟨hI2, hS2 L hS, rfl⟩
  | popBack =>
    rcases List.eq_nil_or_concat L with hnil | ⟨L1, x, hL⟩
    · subst hnil
      have h0 : d.length = 0 := by simpa using hS.1
      simp only [step, popBack_empty d h0, Option.map_some', Option.some.injEq,
        Prod.mk.injEq] at h
      obtain ⟨rfl, rfl⟩ := h
      exact ⟨hI, hS, rfl⟩
    · rw [List.concat_eq_append] at hL
      subst hL
      have hne : d.length ≠ 0 := by
        have := hS.1
        simp at this
        omega
      by_cases ht : 0 ≤ d.tailOffset
      · obtain ⟨d2, h2, hI2, hS2, -⟩ := popBack_spec d hI ht x L1 hS
        simp only [step, h2, Option.map_some', Option.some.injEq, Prod.mk.injEq] at h
        obtain ⟨rfl, rfl⟩ := h
        simp [refStep, hI2, hS2]
      · simp [step, popBack_panics d hI hne ht] at h
  | popFront =>
    cases L with
    | nil =>
      have h0 : d.length = 0 := by simpa using hS.1
      simp only [step, popFront_empty d h0, Option.map_some', Option.some.injEq,
        Prod.mk.injEq] at h
      obtain ⟨rfl, rfl⟩ := h
      exact ⟨hI, hS, rfl⟩
    | cons x L1 =>
      have hne : d.length ≠ 0 := by
        have := hS.1
        simp at this
        omega
      by_cases hh : d.headOffset < 64
      · obtain ⟨d2, h2, hI2, hS2, -⟩ := popFront_spec d hI hh x L1 hS
        simp only [step, h2, Option.map_some', Option.some.injEq, Prod.mk.injEq] at h
        obtain ⟨rfl, rfl⟩ := h
        exact ⟨hI2, hS2, rfl⟩
      · simp [step, popFront_panics d hI hne hh] at h
  | atIndex i =>
    by_cases hin : 0 ≤ i ∧ i < d.length
    · obtain ⟨hi0, hi1⟩ := hin
      have hlt : i.toNat < L.length := by
        have := hS.1
        omega
      have hat := at_of_stores d L hI hS i.toNat hlt
      rw [Int.toNat_of_nonneg hi0] at hat
      simp only [step, hat, Option.map_some', Option.some.injEq, Prod.mk.injEq] at h
      obtain ⟨rfl, rfl⟩ := h
      simp [refStep, hi0, List.getElem?_eq_getElem hlt, hI, hS]
    · have hout : i < 0 ∨ i ≥ d.length := by omega
      simp only [step, at_out d i hout, Option.map_some', Option.some.injEq,
        Prod.mk.injEq] at h
      obtain ⟨rfl, rfl⟩ := h
      refine ⟨hI, ?_, ?_⟩
      · rw [refStep_at_snd]
        exact hS
      · simp only [refStep]
        rcases hout with hneg | hge
        · rw [if_neg (by omega)]
        · by_cases hi0 : 0 ≤ i
          · have hnone : L[i.toNat]? = none := by
              rw [List.getElem?_eq_none_iff]
              have := hS.1
              omega
            rw [if_pos hi0, hnone]
          · rw [if_neg hi0]
  | len =>
    simp only [step, Option.some.injEq, Prod.mk.injEq] at h
    obtain ⟨rfl, rfl⟩ := h
    exact ⟨hI, hS, by simp [refStep, Len, hS.1]⟩

/-! ## Reachable states -/

theorem reachable_step (d d1 : SegmentedSlice T) (c : Call T) (r : Ret T)
    (hR : Reachable d) (h : step d c = some (r, d1)) : Reachable d1 := by
  cases c with
  | pushBack v =>
    cases h2 : PushBack d v with
    | none => simp [step, h2] at h
    | some d2 =>
      simp only [step, h2, Option.map_some', Option.some.injEq, Prod.mk.injEq] at h
      rw [← h.2]
      exact Reachable.pushBack v hR h2
  | pushFront v =>
    cases h2 : PushFront d v with
    | none => simp [step, h2] at h
    | some d2 =>
      simp only [step, h2, Option.map_some', Option.some.injEq, Prod.mk.injEq] at h
      rw [← h.2]
      exact Reachable.pushFront v hR h2
  | popBack =>
    cases h2 : PopBack d with
    | none => simp [step, h2] at h
    | some p =>
      simp only [step, h2, Option.map_some', Option.some.injEq, Prod.mk.injEq] at h
      rw [← h.2]
      exact Reachable.popBack p.1 hR h2
  | popFront =>
    cases h2 : PopFront d with
    | none => simp [step, h2] at h
    | some p =>
      simp only [step, h2, Option.map_some', Option.some.injEq, Prod.mk.injEq] at h
      rw [← h.2]
      exact Reachable.popFront p.1 hR h2
  | atIndex i =>
    cases h2 : At d i with
    | none => simp [step, h2] at h
    | some p =>
      simp only [step, h2, Option.map_some', Option.some.injEq, Prod.mk.injEq] at h
      rw [← h.2]
      exact hR
  | len =>
    simp only [step, Option.some.injEq, Prod.mk.injEq] at h
    rw [← h.2]
    exact hR

theorem run_cons_some (d d1 d2 : SegmentedSlice T) (c : Call T) (cs : List (Call T))
    (r : Ret T) (rs : List (Ret T)) (h1 : step d c = some (r, d1))
    (h2 : run d1 cs = some (rs, d2)) : run d (c :: cs) = some (r :: rs, d2) := by
  simp only [run, h1, h2]

theorem run_cons_inv (d d2 : SegmentedSlice T) (c : Call T) (cs : List (Call T))
    (out : List (Ret T)) (h : run d (c :: cs) = some (out, d2)) :
    ∃ r rs d1, step d c = some (r, d1) ∧ run d1 cs = some (rs, d2) ∧ out = r :: rs := by
  simp only [run] at h
  cases h1 : step d c with
  | none => simp [h1] at h
  | some p =>
    obtain ⟨r, d1⟩ := p
    simp only [h1] at h
    cases h2 : run d1 cs with
    | none => simp [h2] at h
    | some q =>
      obtain ⟨rs, d3⟩ := q
      simp only [h2, Option.some.injEq, Prod.mk.injEq] at h
      exact ⟨r, rs, d1, rfl, by rw [← h.2, h2], h.1.symm⟩

theorem run_append_some (d d1 d2 : SegmentedSlice T) (cs cs2 : List (Call T))
    (rs rs2 : List (Ret T)) (h1 : run d cs = some (rs, d1))
    (h2 : run d1 cs2 = some (rs2, d2)) : run d (cs ++ cs2) = some (rs ++ rs2, d2) := by
  induction cs generalizing d rs with
  | nil =>
    simp only [run, Option.some.injEq, Prod.mk.injEq] at h1
    obtain ⟨rfl, rfl⟩ := h1
    simpa using h2
  | cons c cs ih =>
    obtain ⟨r, rs1, d3, hs, hr, rfl⟩ := run_cons_inv d d1 c cs rs h1
    exact run_cons_some d d3 d2 c (cs ++ cs2) r (rs1 ++ rs2) hs (ih d3 rs1 hr)

theorem reachable_run (d d1 : SegmentedSlice T) (cs : List (Call T)) (rs : List (Ret T))
    (hR : Reachable d) (h : run d cs = some (rs, d1)) : Reachable d1 := by
  induction cs generalizing d rs with
  | nil =>
    simp only [run, Option.some.injEq, Prod.mk.injEq] at h
    rw [← h.2]
    exact hR
  | cons c cs ih =>
    obtain ⟨r, rs1, d3, hs, hr, -⟩ := run_cons_inv d d1 c cs rs h
    exact ih d3 rs1 (reachable_step d d3 c r hR hs) hr

/-- Every returning run agrees with the reference list, call by call. -/
theorem run_refines (d d1 : SegmentedSlice T) (L : List T) (cs : List (Call T))
    (rs : List (Ret T)) (hI : Inv d) (hS : Stores d L) (h : run d cs = some (rs, d1)) :
    Inv d1 ∧ Stores d1 (refRun L cs).2 ∧ rs = (refRun L cs).1 := by
  induction cs generalizing d L rs with
  | nil =>
    simp only [run, Option.some.injEq, Prod.mk.injEq] at h
    obtain ⟨rfl, rfl⟩ := h
    exact ⟨hI, hS, rfl⟩
  | cons c cs ih =>
    obtain ⟨r, rs1, d3, hs, hr, rfl⟩ := run_cons_inv d d1 c cs rs h
    obtain ⟨hI3, hS3, hr3⟩ := step_refines d L hI hS c r d3 hs
    obtain ⟨hI1, hS1, hrs⟩ := ih d3 (refStep L c).2 rs1 hI3 hS3 hr
    exact ⟨hI1, hS1, by rw [hr3, hrs]; rfl⟩

/-- A reachable state satisfies the invariant and stores some list. -/
theorem reachable_inv_stores (d : SegmentedSlice T) (hR : Reachable d) :
    Inv d ∧ ∃ L, Stores d L := by
  induction hR with
  | new => exact ⟨inv_new, [], stores_new⟩
  | @pushBack d0 d1 v _ h ih =>
    obtain ⟨hI, L, hS⟩ := ih
    have := step_refines d0 L hI hS (Call.pushBack v) Ret.unit d1 (by simp [step, h])
    exact ⟨this.1, _, this.2.1⟩
  | @pushFront d0 d1 v _ h ih =>
    obtain ⟨hI, L, hS⟩ := ih
    have := step_refines d0 L hI hS (Call.pushFront v) Ret.unit d1 (by simp [step, h])
    exact ⟨this.1, _, this.2.1⟩
  | @popBack d0 d1 r _ h ih =>
    obtain ⟨hI, L, hS⟩ := ih
    have := step_refines d0 L hI hS Call.popBack (Ret.pair r) d1 (by simp [step, h])
    exact ⟨this.1, _, this.2.1⟩
  | @popFront d0 d1 r _ h ih =>
    obtain ⟨hI, L, hS⟩ := ih
    have := step_refines d0 L hI hS Call.popFront (Ret.pair r) d1 (by simp [step, h])
    exact ⟨this.1, _, this.2.1⟩

/-! ## Sequences of pushes and of pops -/

/-- Pushes only: every call returns, both cursors stay inside their blocks, and the state stores
the reference list. -/
theorem run_pushes (ps : List (Push T)) (d : SegmentedSlice T) (L : List T) (hI : Inv d)
    (hh : d.headOffset < 64) (ht : 0 ≤ d.tailOffset) (hS : Stores d L) :
    ∃ d1, run d (ps.map Push.toCall) = some (List.replicate ps.length Ret.unit, d1) ∧
      Inv d1 ∧ d1.headOffset < 64 ∧ 0 ≤ d1.tailOffset ∧ Stores d1 (refList L ps) := by
  induction ps generalizing d L with
  | nil => exact ⟨d, rfl, hI, hh, ht, hS⟩
  | cons p ps ih =>
    cases p with
    | back v =>
      obtain ⟨d2, h2, hI2, hh2, ht2, -, -, hS2⟩ := pushBack_spec d v hI
      obtain ⟨d1, h1, hI1, hh1, ht1, hS1⟩ :=
        ih d2 (L ++ [v]) hI2 (by rw [hh2]; exact hh) ht2 (hS2 L hS)
      refine ⟨d1, ?_, hI1, hh1, ht1, hS1⟩
      exact run_cons_some d d2 d1 (Call.pushBack v) _ Ret.unit _ (by simp [step, h2]) h1
    | front v =>
      obtain ⟨d2, h2, hI2, ht2, hh2, -, -, hS2⟩ := pushFront_spec d v hI
      obtain ⟨d1, h1, hI1, hh1, ht1, hS1⟩ :=
        ih d2 (v :: L) hI2 hh2 (by rw [ht2]; exact ht) (hS2 L hS)
      refine ⟨d1, ?_, hI1, hh1, ht1, hS1⟩
      exact run_cons_some d d2 d1 (Call.pushFront v) _ Ret.unit _ (by simp [step, h2]) h1

/-- Pops at the front: while the head cursor is inside its block (or the deque is empty), the
stored elements come out front to back. -/
theorem run_popFronts (xs : List T) (d : SegmentedSlice T) (L : List T) (hI : Inv d)
    (hh : HeadOK d) (hS : Stores d (xs ++ L)) :
    ∃ d1, run d (List.replicate xs.length Call.popFront)
        = some (xs.map (fun x => Ret.pair (x, true)), d1) ∧
      Inv d1 ∧ HeadOK d1 ∧ Stores d1 L ∧ d1.tailOffset = d.tailOffset := by
  induction xs generalizing d with
  | nil => exact ⟨d, rfl, hI, hh, hS, rfl⟩
  | cons x xs ih =>
    have hne : d.length ≠ 0 := by
      have := hS.1
      simp at this
      omega
    have hh1 : d.headOffset < 64 := by
      rcases hh with h | h
      · exact h
      · exact absurd h hne
    obtain ⟨d2, h2, hI2, hS2, -, hh2, ht2, -⟩ := popFront_spec d hI hh1 x (xs ++ L) hS
    obtain ⟨d1, h1, hI1, hhd1, hS1, ht1⟩ := ih d2 hI2 hh2 hS2
    refine ⟨d1, ?_, hI1, hhd1, hS1, by rw [ht1, ht2]⟩
    exact run_cons_some d d2 d1 Call.popFront _ (Ret.pair (x, true)) _ (by simp [step, h2]) h1

/-- Pops at the back: while the tail cursor is inside its block (or the deque is empty), the
stored elements come out back to front. -/
theorem run_popBacks (ys : List T) (d : SegmentedSlice T) (L : List T) (hI : Inv d)
    (ht : TailOK d) (hS : Stores d (L ++ ys.reverse)) :
    ∃ d1, run d (List.replicate ys.length Call.popBack)
        = some (ys.map (fun x => Ret.pair (x, true)), d1) ∧
      Inv d1 ∧ TailOK d1 ∧ Stores d1 L ∧ d1.headOffset = d.headOffset := by
  induction ys generalizing d with
  | nil => exact ⟨d, rfl, hI, ht, by simpa using hS, rfl⟩
  | cons y ys ih =>
    have hS0 : Stores d ((L ++ ys.reverse) ++ [y]) := by
      simpa [List.append_assoc] using hS
    have hne : d.length ≠ 0 := by
      have := hS0.1
      simp at this
      omega
    have ht1 : 0 ≤ d.tailOffset := by
      rcases ht with h | h
      · exact h
      · exact absurd h hne
    obtain ⟨d2, h2, hI2, hS2, -, ht2, hh2, -⟩ := popBack_spec d hI ht1 y (L ++ ys.reverse) hS0
    obtain ⟨d1, h1, hI1, htd1, hS1, hh1⟩ := ih d2 hI2 ht2 hS2
    refine ⟨d1, ?_, hI1, htd1, hS1, by rw [hh1, hh2]⟩
    exact run_cons_some d d2 d1 Call.popBack _ (Ret.pair (y, true)) _ (by simp [step, h2]) h1

/-- Draining at the front with more calls allowed than elements stored collects the stored
list. -/
theorem drainFront_stores (L : List T) (d : SegmentedSlice T) (n : Nat) (hI : Inv d)
    (hh : HeadOK d) (hS : Stores d L) (hn : L.length < n) :
    ∃ d1, drainFront n d = some (L, d1) ∧ Inv d1 ∧ Stores d1 [] := by
  induction L generalizing d n with
  | nil =>
    cases n with
    | zero => simp at hn
    | succ m =>
      have h0 : d.length = 0 := by simpa using hS.1
      refine ⟨d, ?_, hI, hS⟩
      simp [drainFront, popFront_empty d h0]
  | cons x L ih =>
    cases n with
    | zero => simp at hn
    | succ m =>
      have hne : d.length ≠ 0 := by
        have := hS.1
        simp at this
        omega
      have hh1 : d.headOffset < 64 := by
        rcases hh with h | h
        · exact h
        · exact absurd h hne
      obtain ⟨d2, h2, hI2, hS2, -, hh2, -⟩ := popFront_spec d hI hh1 x L hS
      obtain ⟨d1, h1, hI1, hS1⟩ := ih d2 m hI2 hh2 hS2 (by simpa using hn)
      refine ⟨d1, ?_, hI1, hS1⟩
      simp [drainFront, h2, h1]

/-! ## The iterators -/

/-- Iterations beyond `length - i` change nothing: the loop condition has already failed. -/
theorem beginLoop_fuel (d : SegmentedSlice T) (yield : T → Bool) (n : Nat) (i : Int)
    (h : d.length - i ≤ n) : beginLoop d yield (n + 1) i = beginLoop d yield n i := by
  induction n generalizing i with
  | zero =>
    simp only [beginLoop]
    rw [if_neg (by omega)]
  | succ m ih =>
    conv_lhs => unfold beginLoop
    conv_rhs => unfold beginLoop
    by_cases hi : i < d.length
    · rw [if_pos hi, if_pos hi, ih (i + 1) (by omega)]
    · rw [if_neg hi, if_neg hi]

/-- Iterations beyond `i + 1` change nothing: the loop condition has already failed. -/
theorem endLoop_fuel (d : SegmentedSlice T) (yield : T → Bool) (n : Nat) (i : Int)
    (h : i + 1 ≤ n) : endLoop d yield (n + 1) i = endLoop d yield n i := by
  induction n generalizing i with
  | zero =>
    simp only [endLoop]
    rw [if_neg (by omega)]
  | succ m ih =>
    conv_lhs => unfold endLoop
    conv_rhs => unfold endLoop
    by_cases hi : i ≥ 0
    · rw [if_pos hi, if_pos hi, ih (i - 1) (by omega)]
    · rw [if_neg hi, if_neg hi]

theorem beginLoop_stores (d : SegmentedSlice T) (L : List T) (hI : Inv d) (hS : Stores d L)
    (n k : Nat) (hk : k + n = L.length) :
    beginLoop d (fun _ => true) n k = some (L.drop k) := by
  induction n generalizing k with
  | zero =>
    have : k = L.length := by omega
    simp [beginLoop, this]
  | succ m ih =>
    have hlt : k < L.length := by omega
    have hd : (k : Int) < d.length := by
      rw [hS.1]
      omega
    have hnext := ih (k + 1) (by omega)
    rw [Nat.cast_add, Nat.cast_one] at hnext
    rw [beginLoop, if_pos hd, at_of_stores d L hI hS k hlt]
    simp only [Bool.not_true, Bool.false_eq_true, if_false, hnext, Option.map_some']
    rw [List.drop_eq_getElem_cons hlt]

theorem endLoop_stores (d : SegmentedSlice T) (L : List T) (hI : Inv d) (hS : Stores d L)
    (n : Nat) (hn : n ≤ L.length) :
    endLoop d (fun _ => true) n ((n : Int) - 1) = some ((L.take n).reverse) := by
  induction n with
  | zero => simp [endLoop]
  | succ m ih =>
    have hlt : m < L.length := by omega
    have e : ((m + 1 : Nat) : Int) - 1 = (m : Int) := by omega
    rw [e, endLoop, if_pos (by omega), at_of_stores d L hI hS m hlt]
    simp only [Bool.not_true, Bool.false_eq_true, if_false, ih (by omega), Option.map_some']
    rw [List.take_succ, List.getElem?_eq_getElem hlt]
    simp only [Option.toList, List.reverse_append, List.reverse_singleton,
      List.singleton_append]

/-- Fully consumed, `Begin` yields the stored list. -/
theorem begin_stores (d : SegmentedSlice T) (L : List T) (hI : Inv d) (hS : Stores d L) :
    Begin d (fun _ => true) = some L := by
  have hlen : d.length.toNat = L.length := by
    have := hS.1
    omega
  unfold Begin
  rw [hlen]
  have := beginLoop_stores d L hI hS L.length 0 (by omega)
  simpa using this

/-- Fully consumed, `End` yields the stored list reversed. -/
theorem end_stores (d : SegmentedSlice T) (L : List T) (hI : Inv d) (hS : Stores d L) :
    End d (fun _ => true) = some L.reverse := by
  have hlen : d.length.toNat = L.length := by
    have := hS.1
    omega
  unfold End
  rw [hlen, hS.1]
  have := endLoop_stores d L hI hS L.length (le_refl _)
  simpa using this

/-! ## Two reachable states on which a pop panics -/

theorem run_callsA : run (NewSegmentedSlice Int) callsA = some (retsA, stateA) := by
  decide

theorem run_callsB : run (NewSegmentedSlice Int) callsB = some (retsB, stateB) := by
  decide

theorem reachable_stateA : Reachable stateA :=
  reachable_run _ _ _ _ Reachable.new run_callsA

theorem reachable_stateB : Reachable stateB :=
  reachable_run _ _ _ _ Reachable.new run_callsB

/-! ## Reference lists of one-sided pushes -/

theorem refList_back {α : Type} (L vs : List α) : refList L (vs.map Push.back) = L ++ vs := by
  induction vs generalizing L with
  | nil => simp [refList]
  | cons v vs ih => simp [refList, ih]

theorem refList_front {α : Type} (L vs : List α) : refList L (vs.map Push.front) = vs.reverse ++ L := by
  induction vs generalizing L with
  | nil => simp [refList]
  | cons v vs ih => simp [refList, ih]

theorem map_back_toCall {α : Type} (vs : List α) :
    (vs.map Push.back).map Push.toCall = vs.map Call.pushBack := by
  induction vs with
  | nil => rfl
  | cons v vs ih => simp [Push.toCall]

theorem map_front_toCall {α : Type} (vs : List α) :
    (vs.map Push.front).map Push.toCall = vs.map Call.pushFront := by
  induction vs with
  | nil => rfl
  | cons v vs ih => simp [Push.toCall]

/-- Pushes only, from the fresh deque. -/
theorem run_pushes_new (ps : List (Push T)) :
    ∃ d, run (NewSegmentedSlice T) (ps.map Push.toCall)
        = some (List.replicate ps.length Ret.unit, d) ∧
      Inv d ∧ d.headOffset < 64 ∧ 0 ≤ d.tailOffset ∧ Stores d (refList [] ps) :=
  run_pushes ps (NewSegmentedSlice T) [] inv_new
    (by show Int.tdiv 64 2 < (64 : Int); decide)
    (by show (0 : Int) ≤ Int.tdiv 64 2 - 1; decide) stores_new

/-! ## The claims -/

/-- C1 (the code departs from the claim): `stateA` is reachable, holds one element, `At(0)`
returns `(99, true)`, and `PopFront` panics on it instead of returning `(99, true)`. -/
theorem popFront_panics_on_stateA :
    Reachable stateA ∧ Len stateA = 1 ∧ At stateA 0 = some (99, true) ∧
      PopFront stateA = none :=
  ⟨reachable_stateA, by decide, by decide, by decide⟩

/-- C2 (the code departs from the claim): `stateB` is reachable, holds one element,
`At(Len()-1)` returns `(99, true)`, and `PopBack` panics on it instead of returning
`(99, true)`. -/
theorem popBack_panics_on_stateB :
    Reachable stateB ∧ Len stateB = 1 ∧ At stateB (Len stateB - 1) = some (99, true) ∧
      PopBack stateB = none :=
  ⟨reachable_stateB, by decide, by decide, by decide⟩

/-- C3 (the code departs from the claim): the calls of `callsA` all return, and the `PopFront`
that follows them panics; likewise `callsB` followed by `PopBack`. -/
theorem run_panics_after_drain :
    run (NewSegmentedSlice Int) callsA = some (retsA, stateA) ∧
      run (NewSegmentedSlice Int) (callsA ++ [Call.popFront]) = none ∧
      run (NewSegmentedSlice Int) callsB = some (retsB, stateB) ∧
      run (NewSegmentedSlice Int) (callsB ++ [Call.popBack]) = none :=
  ⟨run_callsA, by decide, run_callsB, by decide⟩

/-- C4: on every reachable state `PushBack(v)` returns; afterwards `At(old Len())` returns
`(v, true)`, `Len()` has grown by one, and for every `i` with `0 <= i < old Len()` the call
`At(i)` returns the same pair as before, a stored value with flag `true`. -/
theorem pushBack_on_reachable (d : SegmentedSlice T) (hR : Reachable d) (v : T) :
    ∃ d1, PushBack d v = some d1 ∧ At d1 (Len d) = some (v, true) ∧ Len d1 = Len d + 1 ∧
      ∀ i : Int, 0 ≤ i → i < Len d → At d1 i = At d i ∧ ∃ x, At d i = some (x, true) := by
  obtain ⟨hI, L, hS⟩ := reachable_inv_stores d hR
  obtain ⟨d1, h1, hI1, -, -, hlen, -, hS1⟩ := pushBack_spec d v hI
  have hS2 := hS1 L hS
  have hL : d.length = L.length := hS.1
  refine ⟨d1, h1, ?_, hlen, ?_⟩
  · have := at_of_stores d1 (L ++ [v]) hI1 hS2 L.length (by simp)
    rw [Len, hL, this]
    simp
  · intro i hi0 hi1
    rw [Len, hL] at hi1
    obtain ⟨n, rfl⟩ := Int.eq_ofNat_of_zero_le hi0
    have hlt : n < L.length := by omega
    have e1 := at_of_stores d1 (L ++ [v]) hI1 hS2 n (by simp; omega)
    have e2 := at_of_stores d L hI hS n hlt
    rw [e1, e2, List.getElem_append_left hlt]
    exact ⟨rfl, _, rfl⟩

/-- C4 at a concrete state: `PushBack(5)` on `stateA`. -/
theorem pushBack_on_reachable_witness :
    ∃ d1, PushBack stateA 5 = some d1 ∧ At d1 (Len stateA) = some (5, true) ∧
      Len d1 = Len stateA + 1 ∧
      ∀ i : Int, 0 ≤ i → i < Len stateA →
        At d1 i = At stateA i ∧ ∃ x, At stateA i = some (x, true) :=
  pushBack_on_reachable stateA reachable_stateA 5

/-- C5: on every reachable state `PushFront(v)` returns; afterwards `At(0)` returns `(v, true)`,
`Len()` has grown by one, and for every `i` with `0 <= i < old Len()` the call `At(i+1)` returns
the pair `At(i)` returned before, a stored value with flag `true`. -/
theorem pushFront_on_reachable (d : SegmentedSlice T) (hR : Reachable d) (v : T) :
    ∃ d1, PushFront d v = some d1 ∧ At d1 0 = some (v, true) ∧ Len d1 = Len d + 1 ∧
      ∀ i : Int, 0 ≤ i → i < Len d →
        At d1 (i + 1) = At d i ∧ ∃ x, At d i = some (x, true) := by
  obtain ⟨hI, L, hS⟩ := reachable_inv_stores d hR
  obtain ⟨d1, h1, hI1, -, -, hlen, -, hS1⟩ := pushFront_spec d v hI
  have hS2 := hS1 L hS
  have hL : d.length = L.length := hS.1
  refine ⟨d1, h1, ?_, hlen, ?_⟩
  · have := at_of_stores d1 (v :: L) hI1 hS2 0 (by simp)
    simpa using this
  · intro i hi0 hi1
    rw [Len, hL] at hi1
    obtain ⟨n, rfl⟩ := Int.eq_ofNat_of_zero_le hi0
    have hlt : n < L.length := by omega
    have e1 := at_of_stores d1 (v :: L) hI1 hS2 (n + 1) (by simp; omega)
    have e2 := at_of_stores d L hI hS n hlt
    rw [Nat.cast_add, Nat.cast_one] at e1
    rw [e1, e2, List.getElem_cons_succ]
    exact ⟨rfl, _, rfl⟩

/-- C5 at a concrete state: `PushFront(5)` on `stateB`. -/
theorem pushFront_on_reachable_witness :
    ∃ d1, PushFront stateB 5 = some d1 ∧ At d1 0 = some (5, true) ∧
      Len d1 = Len stateB + 1 ∧
      ∀ i : Int, 0 ≤ i → i < Len stateB →
        At d1 (i + 1) = At stateB i ∧ ∃ x, At stateB i = some (x, true) :=
  pushFront_on_reachable stateB reachable_stateB 5

/-- C6: after any sequence of `PushBack` and `PushFront` calls on a fresh deque, every call
returned, `Len()` is the length of the reference list, and `At(i)` returns `(L[i], true)` for
every `i` below it. -/
theorem at_after_pushes (ps : List (Push T)) :
    ∃ rs d, run (NewSegmentedSlice T) (ps.map Push.toCall) = some (rs, d) ∧
      Len d = (refList [] ps).length ∧
      ∀ (i : Nat) (h : i < (refList [] ps).length),
        At d i = some ((refList [] ps)[i], true) := by
  obtain ⟨d, hrun, hI, -, -, hS⟩ := run_pushes_new ps
  exact ⟨_, d, hrun, hS.1, fun i h => at_of_stores d _ hI hS i h⟩

/-- C6 at a concrete sequence: the four pushes of the example. -/
theorem at_after_pushes_witness :
    ∃ rs d, run (NewSegmentedSlice Int)
        ([Push.front 4, Push.back 5, Push.front 3, Push.back 6].map Push.toCall)
          = some (rs, d) ∧
      Len d = (refList [] [Push.front 4, Push.back 5, Push.front 3, Push.back 6]).length ∧
      ∀ (i : Nat)
        (h : i < (refList [] [Push.front (4 : Int), Push.back 5, Push.front 3,
          Push.back 6]).length),
        At d i = some ((refList [] [Push.front 4, Push.back 5, Push.front 3, Push.back 6])[i],
          true) :=
  at_after_pushes [Push.front 4, Push.back 5, Push.front 3, Push.back 6]

/-- C7: after `PushBack(v1), ..., PushBack(vn)` on a fresh deque, `n` calls of `PopFront` return
`(v1, true), ..., (vn, true)` and one more returns the zero value and `false`; after
`PushFront(v1), ..., PushFront(vn)`, `n` calls of `PopFront` return `(vn, true), ..., (v1, true)`
and one more returns the zero value and `false`. -/
theorem popFront_order (vs : List T) :
    (∃ d1, run (NewSegmentedSlice T)
        (vs.map Call.pushBack ++ List.replicate vs.length Call.popFront ++ [Call.popFront])
        = some (List.replicate vs.length Ret.unit ++ vs.map (fun v => Ret.pair (v, true))
            ++ [Ret.pair (default, false)], d1)) ∧
    (∃ d1, run (NewSegmentedSlice T)
        (vs.map Call.pushFront ++ List.replicate vs.length Call.popFront ++ [Call.popFront])
        = some (List.replicate vs.length Ret.unit
            ++ vs.reverse.map (fun v => Ret.pair (v, true))
            ++ [Ret.pair (default, false)], d1)) := by
  constructor
  · obtain ⟨d, hrun, hI, hh, -, hS⟩ := run_pushes_new (vs.map Push.back)
    rw [map_back_toCall, refList_back, List.nil_append, List.length_map] at *
    obtain ⟨d1, hpop, hI1, -, hS1, -⟩ :=
      run_popFronts vs d [] hI (Or.inl hh) (by simpa using hS)
    have h0 : d1.length = 0 := by simpa using hS1.1
    have hlast : run d1 [Call.popFront] = some ([Ret.pair (default, false)], d1) := by
      simp [run, step, popFront_empty d1 h0]
    exact ⟨d1, run_append_some _ _ _ _ _ _ _ (run_append_some _ _ _ _ _ _ _ hrun hpop) hlast⟩
  · obtain ⟨d, hrun, hI, hh, -, hS⟩ := run_pushes_new (vs.map Push.front)
    rw [map_front_toCall, refList_front, List.append_nil, List.length_map] at *
    obtain ⟨d1, hpop, hI1, -, hS1, -⟩ :=
      run_popFronts vs.reverse d [] hI (Or.inl hh) (by simpa using hS)
    rw [List.length_reverse] at hpop
    have h0 : d1.length = 0 := by simpa using hS1.1
    have hlast : run d1 [Call.popFront] = some ([Ret.pair (default, false)], d1) := by
      simp [run, step, popFront_empty d1 h0]
    exact ⟨d1, run_append_some _ _ _ _ _ _ _ (run_append_some _ _ _ _ _ _ _ hrun hpop) hlast⟩

/-- C8: after `PushBack(v1), ..., PushBack(vn)` on a fresh deque, `n` calls of `PopBack` return
`(vn, true), ..., (v1, true)`; after `PushFront(v1), ..., PushFront(vn)`, `n` calls of
`PopFront` return `(vn, true), ..., (v1, true)`; in both cases `Len()` is 0 afterwards.  This
holds for every `n`, in particular beyond two blocks. -/
theorem same_end_reverse_order (vs : List T) :
    (∃ d1, run (NewSegmentedSlice T)
        (vs.map Call.pushBack ++ List.replicate vs.length Call.popBack)
        = some (List.replicate vs.length Ret.unit
            ++ vs.reverse.map (fun v => Ret.pair (v, true)), d1) ∧ Len d1 = 0) ∧
    (∃ d1, run (NewSegmentedSlice T)
        (vs.map Call.pushFront ++ List.replicate vs.length Call.popFront)
        = some (List.replicate vs.length Ret.unit
            ++ vs.reverse.map (fun v => Ret.pair (v, true)), d1) ∧ Len d1 = 0) := by
  constructor
  · obtain ⟨d, hrun, hI, -, ht, hS⟩ := run_pushes_new (vs.map Push.back)
    rw [map_back_toCall, refList_back, List.nil_append, List.length_map] at *
    obtain ⟨d1, hpop, hI1, -, hS1, -⟩ :=
      run_popBacks vs.reverse d [] hI (Or.inl ht) (by simpa using hS)
    rw [List.length_reverse] at hpop
    have h0 : d1.length = 0 := by simpa using hS1.1
    exact ⟨d1, run_append_some _ _ _ _ _ _ _ hrun hpop, h0⟩
  · obtain ⟨d, hrun, hI, hh, -, hS⟩ := run_pushes_new (vs.map Push.front)
    rw [map_front_toCall, refList_front, List.append_nil, List.length_map] at *
    obtain ⟨d1, hpop, hI1, -, hS1, -⟩ :=
      run_popFronts vs.reverse d [] hI (Or.inl hh) (by simpa using hS)
    rw [List.length_reverse] at hpop
    have h0 : d1.length = 0 := by simpa using hS1.1
    exact ⟨d1, run_append_some _ _ _ _ _ _ _ hrun hpop, h0⟩

/-- C9: after any interleaving of `PushFront` and `PushBack` calls on a fresh deque, `Begin()`
fully consumed yields a sequence `S` of `Len()` elements, and calling `PopFront` until it
returns `false` collects exactly `S` (every collected value came with flag `true`), whatever
number of calls beyond `Len() + 1` the loop is allowed; the deque is empty afterwards. -/
theorem drain_yields_begin (ps : List (Push T)) :
    ∃ rs d S, run (NewSegmentedSlice T) (ps.map Push.toCall) = some (rs, d) ∧
      Begin d (fun _ => true) = some S ∧ (S.length : Int) = Len d ∧
      ∀ k : Nat, ∃ d1, drainFront (S.length + 1 + k) d = some (S, d1) ∧ Len d1 = 0 := by
  obtain ⟨d, hrun, hI, hh, -, hS⟩ := run_pushes_new ps
  refine ⟨_, d, refList [] ps, hrun, begin_stores d _ hI hS, hS.1.symm, ?_⟩
  intro k
  obtain ⟨d1, hdr, -, hS1⟩ :=
    drainFront_stores (refList [] ps) d ((refList [] ps).length + 1 + k) hI (Or.inl hh) hS
      (by omega)
  exact ⟨d1, hdr, by simpa using hS1.1⟩

/-- C9 at a concrete sequence: the four pushes of the example. -/
theorem drain_yields_begin_witness :
    ∃ rs d S, run (NewSegmentedSlice Int)
        ([Push.front 4, Push.back 5, Push.front 3, Push.back 6].map Push.toCall)
          = some (rs, d) ∧
      Begin d (fun _ => true) = some S ∧ (S.length : Int) = Len d ∧
      ∀ k : Nat, ∃ d1, drainFront (S.length + 1 + k) d = some (S, d1) ∧ Len d1 = 0 :=
  drain_yields_begin [Push.front 4, Push.back 5, Push.front 3, Push.back 6]

/-- C10: on every reachable state, `Begin()` fully consumed yields `At(0), ..., At(Len()-1)` in
that order, `End()` fully consumed yields the same sequence reversed, and both have `Len()`
elements; and after `PushFront(4); PushBack(5); PushFront(3); PushBack(6)` on a fresh deque
`Begin()` yields `[3,4,5,6]` and `End()` yields `[6,5,4,3]`. -/
theorem begin_end_sequences :
    (∀ d : SegmentedSlice T, Reachable d →
      ∃ S, Begin d (fun _ => true) = some S ∧ End d (fun _ => true) = some S.reverse ∧
        (S.length : Int) = Len d ∧ S.reverse.length = S.length ∧
        ∀ (i : Nat) (h : i < S.length), At d i = some (S[i], true)) ∧
    (∃ rs d, run (NewSegmentedSlice Int) callsEx = some (rs, d) ∧
      Begin d (fun _ => true) = some [3, 4, 5, 6] ∧
      End d (fun _ => true) = some [6, 5, 4, 3]) := by
  constructor
  · intro d hR
    obtain ⟨hI, L, hS⟩ := reachable_inv_stores d hR
    exact ⟨L, begin_stores d L hI hS, end_stores d L hI hS, hS.1.symm, List.length_reverse L,
      fun i h => at_of_stores d L hI hS i h⟩
  · obtain ⟨d, hrun, hI, -, -, hS⟩ :=
      run_pushes_new [Push.front (4 : Int), Push.back 5, Push.front 3, Push.back 6]
    exact ⟨_, d, hrun, begin_stores d _ hI hS, end_stores d _ hI hS⟩

/-- C10 at a concrete state: the iterators on `stateA`. -/
theorem begin_end_sequences_witness :
    ∃ S, Begin stateA (fun _ => true) = some S ∧ End stateA (fun _ => true) = some S.reverse ∧
      (S.length : Int) = Len stateA ∧ S.reverse.length = S.length ∧
      ∀ (i : Nat) (h : i < S.length), At stateA i = some (S[i], true) :=
  begin_end_sequences.1 stateA reachable_stateA

/-! ## Cursor positions after a push -/

theorem pushBack_tail (d d1 : SegmentedSlice T) (v : T) (h : PushBack d v = some d1) :
    d1.tailOffset = if d.tailOffset + 1 = blockSize then 0 else d.tailOffset + 1 := by
  unfold PushBack at h
  by_cases hc : d.tailOffset + 1 = blockSize
  · simp only [if_pos hc] at h ⊢
    split at h
    · cases h
    · simp only [Option.some.injEq] at h
      rw [← h]
  · simp only [if_neg hc] at h ⊢
    split at h
    · cases h
    · simp only [Option.some.injEq] at h
      rw [← h]

theorem pushFront_head (d d1 : SegmentedSlice T) (v : T) (h : PushFront d v = some d1) :
    d1.headOffset = if d.headOffset = 0 then blockSize - 1 else d.headOffset - 1 := by
  unfold PushFront at h
  by_cases hc : d.headOffset = 0
  · simp only [if_pos hc] at h ⊢
    split at h
    · cases h
    · simp only [Option.some.injEq] at h
      rw [← h]
  · simp only [if_neg hc] at h ⊢
    split at h
    · cases h
    · simp only [Option.some.injEq] at h
      rw [← h]

/-- Pushes that stay inside the block at both ends allocate nothing and move the cursors by
the number of pushes at each end. -/
theorem run_pushes_room (ps : List (Push T)) (d : SegmentedSlice T) (hI : Inv d)
    (hb : d.tailOffset + numBack ps ≤ 63) (hf : 0 ≤ d.headOffset - numFront ps) :
    ∃ d1, run d (ps.map Push.toCall) = some (List.replicate ps.length Ret.unit, d1) ∧
      Inv d1 ∧ d1.blocks.length = d.blocks.length ∧
      d1.tailOffset = d.tailOffset + numBack ps ∧
      d1.headOffset = d.headOffset - numFront ps := by
  induction ps generalizing d with
  | nil => exact ⟨d, rfl, hI, rfl, by simp [numBack], by simp [numFront]⟩
  | cons p ps ih =>
    cases p with
    | back v =>
      simp only [numBack, numFront, Nat.cast_add, Nat.cast_one] at hb hf
      obtain ⟨d2, h2, hI2, hh2, -, -, hbl2, -⟩ := pushBack_spec d v hI
      have ht2 := pushBack_tail d d2 v h2
      have hne : ¬ d.tailOffset + 1 = blockSize := by
        unfold blockSize
        omega
      have hne63 : ¬ d.tailOffset = 63 := by omega
      rw [if_neg hne] at ht2
      rw [if_neg hne63] at hbl2
      obtain ⟨d1, h1, hI1, hbl1, ht1, hh1⟩ :=
        ih d2 hI2 (by rw [ht2]; omega) (by rw [hh2]; exact hf)
      refine ⟨d1, ?_, hI1, by omega, ?_, ?_⟩
      · exact run_cons_some d d2 d1 (Call.pushBack v) _ Ret.unit _ (by simp [step, h2]) h1
      · simp only [numBack, Nat.cast_add, Nat.cast_one]
        omega
      · simp only [numFront]
        omega
    | front v =>
      simp only [numBack, numFront, Nat.cast_add, Nat.cast_one] at hb hf
      obtain ⟨d2, h2, hI2, ht2, -, -, hbl2, -⟩ := pushFront_spec d v hI
      have hh2 := pushFront_head d d2 v h2
      have hne : ¬ d.headOffset = 0 := by omega
      rw [if_neg hne] at hh2 hbl2
      obtain ⟨d1, h1, hI1, hbl1, ht1, hh1⟩ :=
        ih d2 hI2 (by rw [ht2]; exact hb) (by rw [hh2]; omega)
      refine ⟨d1, ?_, hI1, by omega, ?_, ?_⟩
      · exact run_cons_some d d2 d1 (Call.pushFront v) _ Ret.unit _ (by simp [step, h2]) h1
      · simp only [numBack]
        omega
      · simp only [numFront, Nat.cast_add, Nat.cast_one]
        omega

theorem refList_length {α : Type} (L : List α) (ps : List (Push α)) :
    (refList L ps).length = L.length + ps.length := by
  induction ps generalizing L with
  | nil => simp [refList]
  | cons p ps ih =>
    cases p with
    | back v =>
      simp only [refList, ih, List.length_append, List.length_cons, List.length_nil]
      omega
    | front v =>
      simp only [refList, ih, List.length_cons]
      omega

theorem run_callsDrain :
    run (NewSegmentedSlice Int) callsDrain = some (retsDrain, stateDrained) := by
  decide

theorem reachable_stateDrained : Reachable stateDrained :=
  reachable_run _ _ _ _ Reachable.new run_callsDrain

/-- C11: on every reachable state, `PopBack` and `PopFront` called when `Len() == 0` return the
zero value and `false` and leave the state as it was; `At(i)` with `i < 0` or `i >= Len()`
returns the zero value and `false` and the state after the call is the state before it; and
`At(i)` always returns, with flag `true` exactly when `0 <= i < Len()`. -/
theorem guards_leave_state (d : SegmentedSlice T) (hR : Reachable d) :
    (Len d = 0 →
      PopBack d = some ((default, false), d) ∧ PopFront d = some ((default, false), d)) ∧
    (∀ i : Int, i < 0 ∨ i ≥ Len d →
      At d i = some (default, false) ∧
        step d (Call.atIndex i) = some (Ret.pair (default, false), d)) ∧
    (∀ i : Int, ∃ r, At d i = some r ∧ (r.2 = true ↔ 0 ≤ i ∧ i < Len d)) := by
  obtain ⟨hI, L, hS⟩ := reachable_inv_stores d hR
  refine ⟨fun h0 => ⟨popBack_empty d h0, popFront_empty d h0⟩, ?_, ?_⟩
  · intro i hi
    have := at_out d i hi
    exact ⟨this, by simp [step, this]⟩
  · intro i
    by_cases hin : 0 ≤ i ∧ i < Len d
    · obtain ⟨hi0, hi1⟩ := hin
      obtain ⟨n, rfl⟩ := Int.eq_ofNat_of_zero_le hi0
      have hlt : n < L.length := by
        have := hS.1
        unfold Len at hi1
        omega
      exact ⟨_, at_of_stores d L hI hS n hlt, by simp [hi1]⟩
    · have hout : i < 0 ∨ i ≥ Len d := by omega
      refine ⟨_, at_out d i hout, ?_⟩
      simp only [Bool.false_eq_true, false_iff]
      exact hin

/-- C11 at a concrete state: the drained deque `stateDrained`. -/
theorem guards_leave_state_witness :
    (Len stateDrained = 0 →
      PopBack stateDrained = some ((default, false), stateDrained) ∧
        PopFront stateDrained = some ((default, false), stateDrained)) ∧
    (∀ i : Int, i < 0 ∨ i ≥ Len stateDrained →
      At stateDrained i = some (default, false) ∧
        step stateDrained (Call.atIndex i) = some (Ret.pair (default, false), stateDrained)) ∧
    (∀ i : Int, ∃ r, At stateDrained i = some r ∧
      (r.2 = true ↔ 0 ≤ i ∧ i < Len stateDrained)) :=
  guards_leave_state stateDrained reachable_stateDrained

/-- C12: a fresh deque has `Len() == 0`, and after any `n` calls, each a `PushBack` or a
`PushFront`, every call returned and `Len()` is `n`. -/
theorem len_after_pushes (ps : List (Push T)) :
    Len (NewSegmentedSlice T) = 0 ∧
    ∃ rs d, run (NewSegmentedSlice T) (ps.map Push.toCall) = some (rs, d) ∧
      Len d = ps.length := by
  obtain ⟨d, hrun, -, -, -, hS⟩ := run_pushes_new ps
  refine ⟨rfl, _, d, hrun, ?_⟩
  have := hS.1
  rw [refList_length] at this
  simpa [Len] using this

/-- C15: in every reachable state `length` is the number of slots from the head cursor to the
tail cursor inclusive, and it is not negative. -/
theorem length_is_cursor_distance (d : SegmentedSlice T) (hR : Reachable d) :
    d.length = (d.tailBlock - d.headBlock) * blockSize + d.tailOffset - d.headOffset + 1 ∧
      0 ≤ d.length := by
  obtain ⟨hI, -⟩ := reachable_inv_stores d hR
  refine ⟨?_, hI.lenNonneg⟩
  rw [hI.headBlock, hI.len]
  unfold blockSize
  omega

/-- C15 at a concrete state: `stateA`. -/
theorem length_is_cursor_distance_witness :
    stateA.length
        = (stateA.tailBlock - stateA.headBlock) * blockSize + stateA.tailOffset
          - stateA.headOffset + 1 ∧
      0 ≤ stateA.length :=
  length_is_cursor_distance stateA reachable_stateA

/-- C16: in every reachable state `headBlock <= tailBlock < len(blocks)`, every block has
`blockSize` slots, and for every `i` with `0 <= i < length` the block index and the offset that
`At` computes lie in `[headBlock, tailBlock]` and in `[0, blockSize)`, and `At(i)` returns a
stored value with flag `true`. -/
theorem at_indexes_in_range (d : SegmentedSlice T) (hR : Reachable d) :
    d.headBlock ≤ d.tailBlock ∧ d.tailBlock < d.blocks.length ∧
    (∀ b ∈ d.blocks, (b.length : Int) = blockSize) ∧
    ∀ i : Int, 0 ≤ i → i < d.length →
      d.headBlock ≤ d.headBlock + (d.headOffset + i).tdiv blockSize ∧
      d.headBlock + (d.headOffset + i).tdiv blockSize ≤ d.tailBlock ∧
      0 ≤ (d.headOffset + i).tmod blockSize ∧
      (d.headOffset + i).tmod blockSize < blockSize ∧
      ∃ v, At d i = some (v, true) := by
  obtain ⟨hI, L, hS⟩ := reachable_inv_stores d hR
  obtain ⟨hhb, htb, hbl, hsz, hhl, hhh, htl, hth, hlen, hnn⟩ := hI
  refine ⟨by omega, by omega, ?_, ?_⟩
  · intro b hb
    rw [hsz b hb]
    rfl
  · intro i hi0 hi1
    have h0 : 0 ≤ d.headOffset + i := by omega
    rw [Int.tdiv_eq_ediv h0 (by decide : (0 : Int) ≤ blockSize),
      Int.tmod_eq_emod h0 (by decide : (0 : Int) ≤ blockSize)]
    unfold blockSize
    refine ⟨by omega, by omega, by omega, by omega, ?_⟩
    obtain ⟨n, rfl⟩ := Int.eq_ofNat_of_zero_le hi0
    have hlt : n < L.length := by
      have := hS.1
      omega
    exact ⟨_, at_of_stores d L ⟨hhb, htb, hbl, hsz, hhl, hhh, htl, hth, hlen, hnn⟩ hS n hlt⟩

/-- C16 at a concrete state: `stateA`, whose only element sits in block 1. -/
theorem at_indexes_in_range_witness :
    stateA.headBlock ≤ stateA.tailBlock ∧ stateA.tailBlock < stateA.blocks.length ∧
    (∀ b ∈ stateA.blocks, (b.length : Int) = blockSize) ∧
    ∀ i : Int, 0 ≤ i → i < stateA.length →
      stateA.headBlock ≤ stateA.headBlock + (stateA.headOffset + i).tdiv blockSize ∧
      stateA.headBlock + (stateA.headOffset + i).tdiv blockSize ≤ stateA.tailBlock ∧
      0 ≤ (stateA.headOffset + i).tmod blockSize ∧
      (stateA.headOffset + i).tmod blockSize < blockSize ∧
      ∃ v, At stateA i = some (v, true) :=
  at_indexes_in_range stateA reachable_stateA

/-- C17 (the code departs from the claim): `stateDrained` is a deque drained to length 0 by
pops; the `PushBack` that follows gives `stateA`, reachable and of length 1, whose head offset
is `blockSize`; and `stateB`, reachable and of length 1, has tail offset `-1`. -/
theorem cursor_outside_block :
    run (NewSegmentedSlice Int) callsDrain = some (retsDrain, stateDrained) ∧
    Len stateDrained = 0 ∧ PushBack stateDrained 99 = some stateA ∧
    Reachable stateA ∧ 0 < stateA.length ∧ stateA.headOffset = blockSize ∧
    Reachable stateB ∧ 0 < stateB.length ∧ stateB.tailOffset = -1 :=
  ⟨run_callsDrain, by decide, by decide, reachable_stateA, by decide, by decide,
    reachable_stateB, by decide, by decide⟩

/-- Pushes from the fresh deque that stay inside the first block. -/
theorem run_pushes_room_new (ps : List (Push T)) (hb : numBack ps ≤ 32)
    (hf : numFront ps ≤ 32) :
    ∃ d, run (NewSegmentedSlice T) (ps.map Push.toCall)
        = some (List.replicate ps.length Ret.unit, d) ∧
      Inv d ∧ d.blocks.length = 1 ∧ d.tailOffset = 31 + numBack ps ∧
      d.headOffset = 32 - numFront ps := by
  have h31 : (NewSegmentedSlice T).tailOffset = 31 := rfl
  have h32 : (NewSegmentedSlice T).headOffset = 32 := rfl
  obtain ⟨d, hrun, hI, hbl, ht, hh⟩ :=
    run_pushes_room ps (NewSegmentedSlice T) inv_new (by rw [h31]; omega) (by rw [h32]; omega)
  exact ⟨d, hrun, hI, hbl, by rw [ht, h31], by rw [hh, h32]⟩

/-- C18: the fresh deque has one block of 64 slots, `headBlock = tailBlock = 0`,
`headOffset = 32`, `tailOffset = 31`, `length = 0`; after pushes with at most 32 `PushBack` and
at most 32 `PushFront` calls, in any interleaving, there is still one block; a `PushBack` after
exactly 32 `PushBack` calls, and a `PushFront` after exactly 32 `PushFront` calls, makes it
two. -/
theorem half_block_without_allocation :
    ((NewSegmentedSlice T).blocks.length = 1 ∧
      (∀ b ∈ (NewSegmentedSlice T).blocks, (b.length : Int) = blockSize) ∧
      blockSize = 64 ∧
      (NewSegmentedSlice T).headBlock = 0 ∧ (NewSegmentedSlice T).tailBlock = 0 ∧
      (NewSegmentedSlice T).headOffset = 32 ∧ (NewSegmentedSlice T).tailOffset = 31 ∧
      (NewSegmentedSlice T).length = 0) ∧
    (∀ ps : List (Push T), numBack ps ≤ 32 → numFront ps ≤ 32 →
      ∃ rs d, run (NewSegmentedSlice T) (ps.map Push.toCall) = some (rs, d) ∧
        d.blocks.length = 1) ∧
    (∀ (ps : List (Push T)) (v : T), numBack ps = 32 → numFront ps ≤ 32 →
      ∃ rs d, run (NewSegmentedSlice T) ((ps ++ [Push.back v]).map Push.toCall) = some (rs, d) ∧
        d.blocks.length = 2) ∧
    (∀ (ps : List (Push T)) (v : T), numFront ps = 32 → numBack ps ≤ 32 →
      ∃ rs d, run (NewSegmentedSlice T) ((ps ++ [Push.front v]).map Push.toCall)
          = some (rs, d) ∧
        d.blocks.length = 2) := by
  refine ⟨⟨rfl, ?_, rfl, rfl, rfl, rfl, rfl, rfl⟩, ?_, ?_, ?_⟩
  · intro b hb
    rw [inv_new.blockSz b hb]
    rfl
  · intro ps hb hf
    obtain ⟨d, hrun, -, hbl, -, -⟩ := run_pushes_room_new ps hb hf
    exact ⟨_, d, hrun, hbl⟩
  · intro ps v hb hf
    obtain ⟨d, hrun, hI, hbl, ht, -⟩ := run_pushes_room_new ps (by omega) hf
    obtain ⟨d2, h2, -, -, -, -, hbl2, -⟩ := pushBack_spec d v hI
    have h63 : d.tailOffset = 63 := by omega
    rw [if_pos h63] at hbl2
    have hstep : run d [Call.pushBack v] = some ([Ret.unit], d2) := by
      simp [run, step, h2]
    refine ⟨List.replicate ps.length Ret.unit ++ [Ret.unit], d2, ?_, by omega⟩
    rw [List.map_append]
    exact run_append_some _ _ _ _ _ _ _ hrun hstep
  · intro ps v hf hb
    obtain ⟨d, hrun, hI, hbl, -, hh⟩ := run_pushes_room_new ps hb (by omega)
    obtain ⟨d2, h2, -, -, -, -, hbl2, -⟩ := pushFront_spec d v hI
    have h0 : d.headOffset = 0 := by omega
    rw [if_pos h0] at hbl2
    have hstep : run d [Call.pushFront v] = some ([Ret.unit], d2) := by
      simp [run, step, h2]
    refine ⟨List.replicate ps.length Ret.unit ++ [Ret.unit], d2, ?_, by omega⟩
    rw [List.map_append]
    exact run_append_some _ _ _ _ _ _ _ hrun hstep

/-- C18 at concrete sequences: thirty-two `PushBack(7)` leave one block, and the thirty-third
makes it two. -/
theorem half_block_without_allocation_witness :
    (∃ rs d, run (NewSegmentedSlice Int)
        ((List.replicate 32 (Push.back (7 : Int))).map Push.toCall) = some (rs, d) ∧
      d.blocks.length = 1) ∧
    (∃ rs d, run (NewSegmentedSlice Int)
        ((List.replicate 32 (Push.back (7 : Int)) ++ [Push.back 8]).map Push.toCall)
          = some (rs, d) ∧
      d.blocks.length = 2) :=
  ⟨half_block_without_allocation.2.1 (List.replicate 32 (Push.back 7)) (by decide) (by decide),
    half_block_without_allocation.2.2.1 (List.replicate 32 (Push.back 7)) 8 (by decide)
      (by decide)⟩

/-- C19: the calls of `callsDrain` end with `Len() == 0`, one block, and the cursors where the
last pop left them (`headOffset = 64`, `tailOffset = 63`, not 32 and 31); one `PushBack` on
that state makes the number of blocks 2, and the same `PushBack` on a fresh deque leaves it
at 1. -/
theorem drained_deque_allocates_sooner :
    run (NewSegmentedSlice Int) callsDrain = some (retsDrain, stateDrained) ∧
    Len stateDrained = 0 ∧ stateDrained.blocks.length = 1 ∧
    stateDrained.headOffset = 64 ∧ stateDrained.tailOffset = 63 ∧
    (stateDrained.headOffset ≠ 32 ∨ stateDrained.tailOffset ≠ 31) ∧
    (∃ d1, PushBack stateDrained 99 = some d1 ∧ d1.blocks.length = 2) ∧
    (∃ d2, PushBack (NewSegmentedSlice Int) 99 = some d2 ∧ d2.blocks.length = 1) :=
  ⟨run_callsDrain, by decide, by decide, by decide, by decide, by decide,
    ⟨stateA, by decide, by decide⟩,
    ⟨{ blocks := [List.replicate 32 0 ++ 99 :: List.replicate 31 0]
       headBlock := 0
       headOffset := 32
       tailBlock := 0
       tailOffset := 32
       length := 1 }, by decide, by decide⟩⟩

/-- C20: whenever a sequence of `PushBack`, `PushFront`, `PopBack`, `PopFront`, `At` and `Len`
calls on a fresh deque runs without a panic, the results are exactly the results of the
reference list, call by call, and the deque stores the reference list at the end. -/
theorem run_agrees_with_reference (cs : List (Call T)) (rs : List (Ret T))
    (d : SegmentedSlice T) (h : run (NewSegmentedSlice T) cs = some (rs, d)) :
    rs = (refRun [] cs).1 ∧ Stores d (refRun [] cs).2 ∧
      Len d = ((refRun [] cs).2).length := by
  obtain ⟨-, hS, hrs⟩ := run_refines (NewSegmentedSlice T) d [] cs rs inv_new stores_new h
  exact ⟨hrs, hS, hS.1⟩

/-- C20 at a concrete sequence: the calls of `callsA`. -/
theorem run_agrees_with_reference_witness :
    retsA = (refRun [] callsA).1 ∧ Stores stateA (refRun [] callsA).2 ∧
      Len stateA = ((refRun [] callsA).2).length :=
  run_agrees_with_reference callsA retsA stateA run_callsA

end Deque

namespace Lists

variable {T : Type}

/-! ## The heap seen through `data` and `next` -/

theorem fview_lt (nodes : List (doublyLinkedListNode T)) (a : Nat) (p : T × Option Nat)
    (h : fview nodes a = some p) : a < nodes.length := by
  unfold fview at h
  cases hn : nodes[a]? with
  | none => simp [hn] at h
  | some nd => exact (List.getElem?_eq_some.1 hn).1

theorem fview_load (nodes : List (doublyLinkedListNode T)) (a : Nat) (v : T)
    (nx : Option Nat) (h : fview nodes a = some (v, nx)) :
    ∃ nd, load nodes (some a) = some nd ∧ nd.data = v ∧ nd.next = nx := by
  unfold fview at h
  cases hn : nodes[a]? with
  | none => simp [hn] at h
  | some nd =>
    simp only [hn, Option.map_some', Option.some.injEq, Prod.mk.injEq] at h
    exact ⟨nd, hn, h.1, h.2⟩

theorem fview_append (nodes : List (doublyLinkedListNode T)) (nd : doublyLinkedListNode T)
    (b : Nat) :
    fview (nodes ++ [nd]) b
      = if b = nodes.length then some (nd.data, nd.next) else fview nodes b := by
  unfold fview
  by_cases hb : b = nodes.length
  · rw [if_pos hb, hb]
    simp
  · rw [if_neg hb]
    by_cases hlt : b < nodes.length
    · rw [List.getElem?_append_left hlt]
    · have h1 : (nodes ++ [nd])[b]? = none := by
        rw [List.getElem?_eq_none_iff]
        simp
        omega
      have h2 : nodes[b]? = none := by
        rw [List.getElem?_eq_none_iff]
        omega
      rw [h1, h2]

/-- The assignment `a.next = q` on an allocated node returns, and changes what is read of that
node only. -/
theorem storeNext_spec (nodes : List (doublyLinkedListNode T)) (a : Nat) (q : Option Nat)
    (ha : a < nodes.length) :
    ∃ nodes1, storeNext nodes (some a) q = some nodes1 ∧ nodes1.length = nodes.length ∧
      ∀ b, fview nodes1 b
        = if b = a then (fview nodes a).map (fun p => (p.1, q)) else fview nodes b := by
  have hget : nodes[a]? = some nodes[a] := List.getElem?_eq_getElem ha
  refine ⟨nodes.set a { nodes[a] with next := q }, ?_, by simp, ?_⟩
  · simp only [storeNext, hget]
  · intro b
    unfold fview
    by_cases hb : b = a
    · rw [if_pos hb, hb, List.getElem?_set_self ha, hget]
      rfl
    · rw [if_neg hb, List.getElem?_set_ne (Ne.symm hb)]

/-- The assignment `a.prev = q` on an allocated node returns, and changes nothing of what is
read through `data` and `next`. -/
theorem storePrev_spec (nodes : List (doublyLinkedListNode T)) (a : Nat) (q : Option Nat)
    (ha : a < nodes.length) :
    ∃ nodes1, storePrev nodes (some a) q = some nodes1 ∧ nodes1.length = nodes.length ∧
      ∀ b, fview nodes1 b = fview nodes b := by
  have hget : nodes[a]? = some nodes[a] := List.getElem?_eq_getElem ha
  refine ⟨nodes.set a { nodes[a] with prev := q }, ?_, by simp, ?_⟩
  · simp only [storePrev, hget]
  · intro b
    unfold fview
    by_cases hb : b = a
    · rw [hb, List.getElem?_set_self ha, hget]
      rfl
    · rw [List.getElem?_set_ne (Ne.symm hb)]

/-! ## Chains of nodes -/

theorem fwd_length (nodes : List (doublyLinkedListNode T)) (addrs : List Nat) (vals : List T)
    (h : Fwd nodes addrs vals) : addrs.length = vals.length := by
  induction addrs generalizing vals with
  | nil =>
    cases vals with
    | nil => rfl
    | cons v vs => exact absurd h (by simp [Fwd])
  | cons a rest ih =>
    cases vals with
    | nil => exact absurd h (by simp [Fwd])
    | cons v vs =>
      simp only [Fwd] at h
      simp only [List.length_cons, ih vs h.2]

theorem fwd_congr (nodes nodes1 : List (doublyLinkedListNode T)) (addrs : List Nat)
    (vals : List T) (hf : ∀ a ∈ addrs, fview nodes1 a = fview nodes a)
    (h : Fwd nodes addrs vals) : Fwd nodes1 addrs vals := by
  induction addrs generalizing vals with
  | nil =>
    cases vals with
    | nil => trivial
    | cons v vs => exact absurd h (by simp [Fwd])
  | cons a rest ih =>
    cases vals with
    | nil => exact absurd h (by simp [Fwd])
    | cons v vs =>
      simp only [Fwd] at h ⊢
      exact ⟨by rw [hf a (List.mem_cons_self _ _)]; exact h.1,
        ih vs (fun b hb => hf b (List.mem_cons_of_mem _ hb)) h.2⟩

theorem fwd_mem_lt (nodes : List (doublyLinkedListNode T)) (addrs : List Nat) (vals : List T)
    (h : Fwd nodes addrs vals) : ∀ a ∈ addrs, a < nodes.length := by
  induction addrs generalizing vals with
  | nil => intro a ha; simp at ha
  | cons a rest ih =>
    cases vals with
    | nil => exact absurd h (by simp [Fwd])
    | cons v vs =>
      simp only [Fwd] at h
      intro b hb
      rcases List.mem_cons.1 hb with rfl | hb
      · exact fview_lt nodes _ _ h.1
      · exact ih vs h.2 b hb

/-- A chain is determined by its first pointer. -/
theorem fwd_unique (nodes : List (doublyLinkedListNode T)) (as1 as2 : List Nat)
    (vs1 vs2 : List T) (h1 : Fwd nodes as1 vs1) (h2 : Fwd nodes as2 vs2)
    (hh : as1.head? = as2.head?) : as1 = as2 ∧ vs1 = vs2 := by
  induction as1 generalizing as2 vs1 vs2 with
  | nil =>
    cases as2 with
    | nil =>
      cases vs1 with
      | nil =>
        cases vs2 with
        | nil => exact ⟨rfl, rfl⟩
        | cons v vs => exact absurd h2 (by simp [Fwd])
      | cons v vs => exact absurd h1 (by simp [Fwd])
    | cons b rest => simp at hh
  | cons a rest ih =>
    cases as2 with
    | nil => simp at hh
    | cons b rest2 =>
      simp only [List.head?_cons, Option.some.injEq] at hh
      subst hh
      cases vs1 with
      | nil => exact absurd h1 (by simp [Fwd])
      | cons v1 vs1 =>
        cases vs2 with
        | nil => exact absurd h2 (by simp [Fwd])
        | cons v2 vs2 =>
          simp only [Fwd] at h1 h2
          have e := h1.1.symm.trans h2.1
          simp only [Option.some.injEq, Prod.mk.injEq] at e
          obtain ⟨e1, e2⟩ := ih rest2 vs1 vs2 h1.2 h2.2 e.2
          exact ⟨by rw [e1], by rw [e.1, e2]⟩

theorem fwd_suffix (nodes : List (doublyLinkedListNode T)) (pre suf : List Nat)
    (vals : List T) (h : Fwd nodes (pre ++ suf) vals) :
    Fwd nodes suf (vals.drop pre.length) := by
  induction pre generalizing vals with
  | nil => simpa using h
  | cons a rest ih =>
    cases vals with
    | nil => exact absurd h (by simp [Fwd])
    | cons v vs =>
      simp only [List.cons_append, Fwd] at h
      simpa using ih vs h.2

/-- A chain that ends in `nil` visits no node twice. -/
theorem fwd_nodup (nodes : List (doublyLinkedListNode T)) (addrs : List Nat) (vals : List T)
    (h : Fwd nodes addrs vals) : addrs.Nodup := by
  induction addrs generalizing vals with
  | nil => exact List.nodup_nil
  | cons a rest ih =>
    cases vals with
    | nil => exact absurd h (by simp [Fwd])
    | cons v vs =>
      have h0 := h
      simp only [Fwd] at h
      refine List.nodup_cons.2 ⟨?_, ih vs h.2⟩
      intro hmem
      obtain ⟨pre, post, hsplit⟩ := List.append_of_mem hmem
      have hsuf : Fwd nodes (a :: post) (vs.drop pre.length) := by
        apply fwd_suffix nodes pre (a :: post) vs
        rw [← hsplit]
        exact h.2
      have := (fwd_unique nodes (a :: rest) (a :: post) _ _ h0 hsuf rfl).1
      have hlen := congrArg List.length this
      rw [hsplit] at hlen
      simp at hlen
      omega

theorem fwd_length_le (nodes : List (doublyLinkedListNode T)) (addrs : List Nat)
    (vals : List T) (h : Fwd nodes addrs vals) : addrs.length ≤ nodes.length := by
  have hsub : addrs ⊆ List.range nodes.length := fun a ha =>
    List.mem_range.2 (fwd_mem_lt nodes addrs vals h a ha)
  have := ((fwd_nodup nodes addrs vals h).subperm hsub).length_le
  simpa using this

theorem head?_eq_getElem?_zero {α : Type} (xs : List α) : xs.head? = xs[0]? := by
  cases xs <;> simp

/-- The node at position `i` of a chain holds `vals[i]` and points to the node at `i + 1`. -/
theorem fwd_get (nodes : List (doublyLinkedListNode T)) (addrs : List Nat) (vals : List T)
    (h : Fwd nodes addrs vals) (i a : Nat) (ha : addrs[i]? = some a) :
    ∃ v, vals[i]? = some v ∧ fview nodes a = some (v, addrs[i + 1]?) := by
  induction addrs generalizing vals i with
  | nil => simp at ha
  | cons b rest ih =>
    cases vals with
    | nil => exact absurd h (by simp [Fwd])
    | cons v vs =>
      simp only [Fwd] at h
      cases i with
      | zero =>
        simp only [List.getElem?_cons_zero, Option.some.injEq] at ha
        subst ha
        refine ⟨v, by simp, ?_⟩
        rw [h.1, head?_eq_getElem?_zero]
        simp
      | succ j =>
        rw [List.getElem?_cons_succ] at ha
        obtain ⟨w, hw, hf⟩ := ih vs h.2 j ha
        exact ⟨w, by rw [List.getElem?_cons_succ]; exact hw,
          by rw [List.getElem?_cons_succ]; exact hf⟩

/-- Walking `k` links from the head of a chain reaches its node at position `k`. -/
theorem walk_fwd (nodes : List (doublyLinkedListNode T)) (k : Nat) (addrs : List Nat)
    (vals : List T) (h : Fwd nodes addrs vals) (hk : k ≤ addrs.length) :
    walk nodes k addrs.head? = some addrs[k]? := by
  induction k generalizing addrs vals with
  | zero => rw [walk, head?_eq_getElem?_zero]
  | succ j ih =>
    cases addrs with
    | nil => simp at hk
    | cons a rest =>
      cases vals with
      | nil => exact absurd h (by simp [Fwd])
      | cons v vs =>
        simp only [Fwd] at h
        obtain ⟨nd, hnd, -, hnx⟩ := fview_load nodes a v _ h.1
        rw [List.head?_cons, walk, hnd]
        simp only
        rw [hnx, ih rest vs h.2 (by simpa using hk), List.getElem?_cons_succ]

/-- The loop of `Slice` over a chain, with enough iterations allowed, appends its values. -/
theorem slice_fwd (nodes : List (doublyLinkedListNode T)) (addrs : List Nat) (vals : List T)
    (k : Nat) (acc : List T) (h : Fwd nodes addrs vals) (hk : addrs.length ≤ k) :
    sliceLoop nodes k addrs.head? acc = some (acc ++ vals) := by
  induction addrs generalizing vals k acc with
  | nil =>
    cases vals with
    | nil =>
      cases k <;> simp [sliceLoop]
    | cons v vs => exact absurd h (by simp [Fwd])
  | cons a rest ih =>
    cases vals with
    | nil => exact absurd h (by simp [Fwd])
    | cons v vs =>
      simp only [Fwd] at h
      obtain ⟨nd, hnd, hdata, hnx⟩ := fview_load nodes a v _ h.1
      cases k with
      | zero => simp at hk
      | succ j =>
        simp only [load] at hnd
        rw [List.head?_cons, sliceLoop, hnd]
        simp only
        rw [hnx, hdata, ih vs j (acc ++ [v]) h.2 (by simpa using hk)]
        simp

/-- When the loop of `Slice` returns, it has walked a chain. -/
theorem fwd_of_slice (nodes : List (doublyLinkedListNode T)) (k : Nat) (cur : Option Nat)
    (acc out : List T) (h : sliceLoop nodes k cur acc = some out) :
    ∃ addrs vals, out = acc ++ vals ∧ cur = addrs.head? ∧ Fwd nodes addrs vals := by
  induction k generalizing cur acc with
  | zero =>
    cases cur with
    | none =>
      simp only [sliceLoop, Option.some.injEq] at h
      exact ⟨[], [], by simp [h], rfl, trivial⟩
    | some a => simp [sliceLoop] at h
  | succ j ih =>
    cases cur with
    | none =>
      simp only [sliceLoop, Option.some.injEq] at h
      exact ⟨[], [], by simp [h], rfl, trivial⟩
    | some a =>
      simp only [sliceLoop] at h
      cases hn : nodes[a]? with
      | none => simp [hn] at h
      | some nd =>
        simp only [hn] at h
        obtain ⟨addrs, vals, hout, hcur, hF⟩ := ih nd.next (acc ++ [nd.data]) h
        refine ⟨a :: addrs, nd.data :: vals, by simp [hout], rfl, ?_⟩
        simp only [Fwd]
        exact ⟨by simp [fview, hn, hcur], hF⟩

/-- Linking a new node `n` after the node at position `pos` of a chain. -/
theorem fwd_insert (nodes nodes1 : List (doublyLinkedListNode T)) (pos : Nat)
    (addrs : List Nat) (vals : List T) (c n : Nat) (x : T)
    (h : Fwd nodes addrs vals) (hc : addrs[pos]? = some c) (hn : n ∉ addrs)
    (hnd : addrs.Nodup)
    (h1 : fview nodes1 n = some (x, addrs[pos + 1]?))
    (h2 : fview nodes1 c = (fview nodes c).map (fun p => (p.1, some n)))
    (h3 : ∀ b, b ≠ n → b ≠ c → fview nodes1 b = fview nodes b) :
    Fwd nodes1 (addrs.take (pos + 1) ++ n :: addrs.drop (pos + 1))
      (vals.take (pos + 1) ++ x :: vals.drop (pos + 1)) := by
  induction pos generalizing addrs vals with
  | zero =>
    cases addrs with
    | nil => simp at hc
    | cons a rest =>
      cases vals with
      | nil => exact absurd h (by simp [Fwd])
      | cons v vs =>
        simp only [List.getElem?_cons_zero, Option.some.injEq] at hc
        subst hc
        simp only [Fwd] at h
        have hnd2 := List.nodup_cons.1 hnd
        simp only [zero_add, List.take_succ_cons, List.take_zero, List.drop_succ_cons,
          List.drop_zero, List.singleton_append, Fwd]
        refine ⟨?_, ?_, ?_⟩
        · rw [h2, h.1]
          rfl
        · rw [h1, head?_eq_getElem?_zero]
          simp
        · apply fwd_congr nodes nodes1 rest vs _ h.2
          intro b hb
          apply h3
          · intro hbn
            exact hn (by rw [← hbn]; exact List.mem_cons_of_mem _ hb)
          · intro hba
            exact hnd2.1 (by rw [← hba]; exact hb)
  | succ j ih =>
    cases addrs with
    | nil => simp at hc
    | cons a rest =>
      cases vals with
      | nil => exact absurd h (by simp [Fwd])
      | cons v vs =>
        rw [List.getElem?_cons_succ] at hc
        simp only [Fwd] at h
        have hnd2 := List.nodup_cons.1 hnd
        have hcmem : c ∈ rest := List.getElem?_mem hc
        have hrec := ih rest vs h.2 hc (fun hm => hn (List.mem_cons_of_mem _ hm)) hnd2.2
          (by rw [h1, List.getElem?_cons_succ])
        simp only [List.take_succ_cons, List.drop_succ_cons, List.cons_append, Fwd]
        refine ⟨?_, hrec⟩
        rw [h3 a (fun han => hn (by rw [← han]; exact List.mem_cons_self _ _))
          (fun hac => hnd2.1 (by rw [hac]; exact hcmem)), h.1]
        cases rest with
        | nil => simp at hc
        | cons r rs => rfl

/-! ## The operations on chains -/

theorem fwd_alloc (nodes : List (doublyLinkedListNode T)) (nd : doublyLinkedListNode T)
    (addrs : List Nat) (vals : List T) (h : Fwd nodes addrs vals) :
    Fwd (nodes ++ [nd]) addrs vals := by
  apply fwd_congr nodes _ addrs vals _ h
  intro a ha
  rw [fview_append, if_neg (Nat.ne_of_lt (fwd_mem_lt nodes addrs vals h a ha))]

theorem rep_empty : Rep (emptyList T) [] [] :=
  ⟨trivial, rfl, rfl, rfl⟩

/-- The call `PushFront(x)` on a chain returns and puts a new node in front of it. -/
theorem pushFront_rep (l : DoublyLinkedList T) (addrs : List Nat) (vals : List T) (x : T)
    (h : Rep l addrs vals) :
    ∃ l1, PushFront l x = some l1 ∧ Rep l1 (l.nodes.length :: addrs) (x :: vals) := by
  obtain ⟨hF, hhead, htail, hcount⟩ := h
  have hlen := fwd_length _ _ _ hF
  cases addrs with
  | nil =>
    cases vals with
    | cons v vs => simp at hlen
    | nil =>
      rw [List.head?_nil] at hhead
      refine ⟨{ nodes := l.nodes ++ [{ data := x, next := none, prev := none }],
                head := some l.nodes.length, tail := some l.nodes.length,
                count := l.count + 1 }, by simp only [PushFront, hhead, if_true], ?_, rfl,
              rfl, ?_⟩
      · simp only [Fwd, fview_append, if_true, List.head?_nil, and_true]
      · show l.count + 1 = (([x] : List T).length : Int)
        simp [hcount]
  | cons a rest =>
    rw [List.head?_cons] at hhead
    have ha : a < l.nodes.length := fwd_mem_lt _ _ _ hF a (List.mem_cons_self _ _)
    have hne : ¬ l.head = none := by simp [hhead]
    obtain ⟨nodes2, hs2, hl2, hv2⟩ :=
      storeNext_spec (l.nodes ++ [{ data := x, next := none, prev := none }]) l.nodes.length
        (some a) (by simp)
    obtain ⟨nodes3, hs3, hl3, hv3⟩ :=
      storePrev_spec nodes2 a (some l.nodes.length) (by rw [hl2]; simp; omega)
    refine ⟨{ nodes := nodes3, head := some l.nodes.length, tail := l.tail,
              count := l.count + 1 }, ?_, ?_, rfl, ?_, ?_⟩
    · simp [PushFront, hhead, hs2, hs3]
    · simp only [Fwd, List.head?_cons]
      refine ⟨?_, ?_⟩
      · rw [hv3, hv2, if_pos rfl, fview_append, if_pos rfl]
        rfl
      · apply fwd_congr l.nodes nodes3 (a :: rest) vals _ hF
        intro b hb
        have hb2 := fwd_mem_lt _ _ _ hF b hb
        rw [hv3, hv2, if_neg (Nat.ne_of_lt hb2), fview_append, if_neg (Nat.ne_of_lt hb2)]
    · show l.tail = (l.nodes.length :: a :: rest).getLast?
      rw [htail]
      simp [List.getLast?_cons_cons]
    · show l.count + 1 = ((x :: vals).length : Int)
      simp [hcount]

/-- The call `PushBack(x)` on a chain returns and puts a new node behind it. -/
theorem pushBack_rep (l : DoublyLinkedList T) (addrs : List Nat) (vals : List T) (x : T)
    (h : Rep l addrs vals) :
    ∃ l1, PushBack l x = some l1 ∧ Rep l1 (addrs ++ [l.nodes.length]) (vals ++ [x]) := by
  obtain ⟨hF, hhead, htail, hcount⟩ := h
  have hlen := fwd_length _ _ _ hF
  rcases List.eq_nil_or_concat addrs with hnil | ⟨pre, t, hpre⟩
  · subst hnil
    cases vals with
    | cons v vs => simp at hlen
    | nil =>
      rw [List.head?_nil] at hhead
      refine ⟨{ nodes := l.nodes ++ [{ data := x, next := none, prev := none }],
                head := some l.nodes.length, tail := some l.nodes.length,
                count := l.count + 1 }, by simp only [PushBack, hhead, if_true], ?_, rfl,
              rfl, ?_⟩
      · simp only [List.nil_append, Fwd, fview_append, if_true, List.head?_nil, and_true]
      · show l.count + 1 = ((([] : List T) ++ [x]).length : Int)
        simp [hcount]
  · rw [List.concat_eq_append] at hpre
    have htl : l.tail = some t := by rw [htail, hpre]; simp
    have htmem : t ∈ addrs := by rw [hpre]; simp
    have ht : t < l.nodes.length := fwd_mem_lt _ _ _ hF t htmem
    have hne : ¬ l.head = none := by
      rw [hhead, hpre]
      cases pre <;> simp
    have hpos : addrs[addrs.length - 1]? = some t := by
      rw [hpre]
      simp
    obtain ⟨nodes2, hs2, hl2, hv2⟩ :=
      storeNext_spec (l.nodes ++ [{ data := x, next := none, prev := none }]) t
        (some l.nodes.length) (by simp; omega)
    obtain ⟨nodes3, hs3, hl3, hv3⟩ :=
      storePrev_spec nodes2 l.nodes.length (some t) (by rw [hl2]; simp)
    have hnmem : l.nodes.length ∉ addrs := fun hm =>
      Nat.lt_irrefl _ (fwd_mem_lt _ _ _ hF _ hm)
    have hlpos : 0 < addrs.length := List.length_pos_of_mem htmem
    have hins := fwd_insert l.nodes nodes3 (addrs.length - 1) addrs vals t l.nodes.length x hF
      hpos hnmem (fwd_nodup _ _ _ hF)
      (by
        have e : addrs[addrs.length - 1 + 1]? = none := by
          rw [List.getElem?_eq_none_iff]
          omega
        rw [hv3, hv2, if_neg (Nat.ne_of_gt ht), fview_append, if_pos rfl, e])
      (by rw [hv3, hv2, if_pos rfl, fview_append, if_neg (Nat.ne_of_lt ht)])
      (by
        intro b hbn hbt
        rw [hv3, hv2, if_neg hbt, fview_append, if_neg hbn])
    have e1 : addrs.length - 1 + 1 = addrs.length := by omega
    rw [e1, List.take_length, List.drop_length] at hins
    have e2 : List.take addrs.length vals = vals := by rw [hlen, List.take_length]
    have e3 : List.drop addrs.length vals = [] := by rw [hlen, List.drop_length]
    rw [e2, e3] at hins
    refine ⟨{ nodes := nodes3, head := l.head, tail := some l.nodes.length,
              count := l.count + 1 }, ?_, hins, ?_, ?_, ?_⟩
    · simp only [PushBack, if_neg hne, htl, hs2, hs3]
    · show l.head = (addrs ++ [l.nodes.length]).head?
      rw [hhead, hpre]
      cases pre <;> simp
    · show some l.nodes.length = (addrs ++ [l.nodes.length]).getLast?
      simp
    · show l.count + 1 = ((vals ++ [x]).length : Int)
      simp [hcount]

/-- A list built by pushes is a chain from `head` to `tail` of `count` nodes. -/
theorem built_rep (l : DoublyLinkedList T) (h : Built l) : ∃ addrs vals, Rep l addrs vals := by
  induction h with
  | empty => exact ⟨[], [], rep_empty⟩
  | @pushBack l0 l1 v _ hp ih =>
    obtain ⟨addrs, vals, hR⟩ := ih
    obtain ⟨l2, h2, hR2⟩ := pushBack_rep l0 addrs vals v hR
    rw [hp, Option.some.injEq] at h2
    rw [h2]
    exact ⟨_, _, hR2⟩
  | @pushFront l0 l1 v _ hp ih =>
    obtain ⟨addrs, vals, hR⟩ := ih
    obtain ⟨l2, h2, hR2⟩ := pushFront_rep l0 addrs vals v hR
    rw [hp, Option.some.injEq] at h2
    rw [h2]
    exact ⟨_, _, hR2⟩

/-- The general path of `Insert`, at a position `pos` with `0 < pos < count - 1` of a chain
from `head`: the call returns and links a new node after the node at position `pos`.  Only
`data` and `next` of the chain are read, so nothing is asked of `tail` or of the `prev`
pointers. -/
theorem insert_fwd (l : DoublyLinkedList T) (addrs : List Nat) (vals : List T) (pos : Nat)
    (x : T) (hF : Fwd l.nodes addrs vals) (hhead : l.head = addrs.head?)
    (hcount : l.count = vals.length) (hp0 : 0 < pos) (hp1 : pos + 1 < vals.length) :
    ∃ l1, Insert l pos x = some l1 ∧
      Fwd l1.nodes (addrs.take (pos + 1) ++ l.nodes.length :: addrs.drop (pos + 1))
        (vals.take (pos + 1) ++ x :: vals.drop (pos + 1)) ∧
      l1.head = l.head ∧ l1.tail = l.tail ∧ l1.count = l.count + 1 ∧
      l1.nodes.length = l.nodes.length + 1 ∧
      ∀ b, b < l.nodes.length →
        (fview l1.nodes b).map Prod.fst = (fview l.nodes b).map Prod.fst := by
  have hlen := fwd_length _ _ _ hF
  obtain ⟨c, hc⟩ : ∃ c, addrs[pos]? = some c :=
    ⟨_, List.getElem?_eq_getElem (by omega)⟩
  obtain ⟨c2, hc2⟩ : ∃ c2, addrs[pos + 1]? = some c2 :=
    ⟨_, List.getElem?_eq_getElem (by omega)⟩
  have hcl : c < l.nodes.length := fwd_mem_lt _ _ _ hF _ (List.getElem?_mem hc)
  have hc2l : c2 < l.nodes.length := fwd_mem_lt _ _ _ hF _ (List.getElem?_mem hc2)
  generalize hn : l.nodes.length = n at hcl hc2l ⊢
  generalize hnodes1 : l.nodes ++ [{ data := x, next := none, prev := none }] = nodes1
  have hl1 : nodes1.length = n + 1 := by
    rw [← hnodes1, ← hn]
    simp
  have hv1 : ∀ b, fview nodes1 b = if b = n then some (x, none) else fview l.nodes b := by
    intro b
    rw [← hnodes1, ← hn, fview_append]
  have hF1 : Fwd nodes1 addrs vals := by
    rw [← hnodes1]
    exact fwd_alloc l.nodes _ addrs vals hF
  have hwalk := walk_fwd _ pos addrs vals hF1 (by omega)
  rw [← hhead, hc] at hwalk
  obtain ⟨v, -, hfv⟩ := fwd_get _ addrs vals hF1 pos _ hc
  rw [hc2] at hfv
  obtain ⟨cur, hcur, -, hcurnext⟩ := fview_load _ _ _ _ hfv
  obtain ⟨nodes2, hs2, hl2, hv2⟩ := storeNext_spec nodes1 n (some c2) (by omega)
  obtain ⟨nodes3, hs3, hl3, hv3⟩ := storePrev_spec nodes2 n (some c) (by omega)
  have hfv3 : fview nodes3 c = some (v, some c2) := by
    rw [hv3, hv2, if_neg (Nat.ne_of_lt hcl), hfv]
  obtain ⟨cur3, hcur3, -, hcur3next⟩ := fview_load _ _ _ _ hfv3
  obtain ⟨nodes4, hs4, hl4, hv4⟩ := storePrev_spec nodes3 c2 (some n) (by omega)
  obtain ⟨nodes5, hs5, hl5, hv5⟩ := storeNext_spec nodes4 c (some n) (by omega)
  have hview : ∀ b, fview nodes5 b
      = if b = c then (fview l.nodes c).map (fun p => (p.1, some n))
        else if b = n then some (x, some c2)
        else fview l.nodes b := by
    intro b
    rw [hv5]
    by_cases hb : b = c
    · rw [if_pos hb, if_pos hb, hv4, hv3, hv2, if_neg (Nat.ne_of_lt hcl), hv1,
        if_neg (Nat.ne_of_lt hcl)]
    · rw [if_neg hb, if_neg hb, hv4, hv3, hv2]
      by_cases hbn : b = n
      · rw [if_pos hbn, if_pos hbn, hv1, if_pos rfl]
        rfl
      · rw [if_neg hbn, if_neg hbn, hv1, if_neg hbn]
  have hnmem : n ∉ addrs := fun hm => by
    have := fwd_mem_lt _ _ _ hF _ hm
    omega
  refine ⟨{ nodes := nodes5, head := l.head, tail := l.tail, count := l.count + 1 },
    ?_, ?_, rfl, rfl, rfl, ?_, ?_⟩
  · have hn1 : ¬ ((pos : Int) < 0 ∨ (pos : Int) ≥ l.count) := by omega
    have hn2 : ¬ (pos : Int) = 0 := by omega
    have hn3 : ¬ (pos : Int) = l.count - 1 := by omega
    rw [← hcurnext] at hs2
    rw [← hcur3next] at hs4
    unfold Insert
    rw [if_neg hn1, if_neg hn2, if_neg hn3]
    simp only [Int.toNat_ofNat, hn, hnodes1, hwalk, hcur, hs2, hs3, hcur3, hs4, hs5]
  · apply fwd_insert l.nodes nodes5 pos addrs vals c n x hF hc hnmem (fwd_nodup _ _ _ hF)
    · rw [hview, if_neg (Nat.ne_of_gt hcl), if_pos rfl, hc2]
    · rw [hview, if_pos rfl]
    · intro b hbn hbc
      rw [hview, if_neg hbc, if_neg hbn]
  · show nodes5.length = n + 1
    omega
  · intro b hb
    show (fview nodes5 b).map Prod.fst = _
    rw [hview]
    by_cases hbc : b = c
    · rw [if_pos hbc, hbc]
      cases fview l.nodes c <;> rfl
    · rw [if_neg hbc, if_neg (Nat.ne_of_lt hb)]

/-- On a chain from `head` of `count` nodes, `Get(i)` returns the value at position `i`. -/
theorem get_fwd [Inhabited T] (l : DoublyLinkedList T) (addrs : List Nat) (vals : List T)
    (i : Nat) (v : T) (hF : Fwd l.nodes addrs vals) (hhead : l.head = addrs.head?)
    (hcount : l.count = vals.length) (hv : vals[i]? = some v) : Get l i = some v := by
  have hlen := fwd_length _ _ _ hF
  have hi : i < vals.length := (List.getElem?_eq_some.1 hv).1
  obtain ⟨c, hc⟩ : ∃ c, addrs[i]? = some c := ⟨_, List.getElem?_eq_getElem (by omega)⟩
  have hwalk := walk_fwd _ i addrs vals hF (by omega)
  rw [← hhead, hc] at hwalk
  obtain ⟨w, hw, hfv⟩ := fwd_get _ addrs vals hF i _ hc
  rw [hv, Option.some.injEq] at hw
  obtain ⟨nd, hnd, hdata, -⟩ := fview_load _ _ _ _ hfv
  have hn1 : ¬ ((i : Int) < 0 ∨ (i : Int) ≥ l.count) := by omega
  unfold Get
  rw [if_neg hn1]
  simp only [Int.toNat_ofNat, hwalk, hnd, Option.map_some', hdata, hw]

/-- On a chain from `head`, `Slice` returns the values of the chain. -/
theorem slice_of_fwd (l : DoublyLinkedList T) (addrs : List Nat) (vals : List T)
    (hF : Fwd l.nodes addrs vals) (hhead : l.head = addrs.head?) : Slice l = some vals := by
  have := slice_fwd l.nodes addrs vals l.nodes.length [] hF (fwd_length_le _ _ _ hF)
  rw [← hhead] at this
  simpa [Slice] using this

/-- When `Slice` returns, the list is a chain from `head` holding the values returned. -/
theorem fwd_of_slice_eq (l : DoublyLinkedList T) (s : List T) (h : Slice l = some s) :
    ∃ addrs, Fwd l.nodes addrs s ∧ l.head = addrs.head? := by
  obtain ⟨addrs, vals, hout, hcur, hF⟩ := fwd_of_slice l.nodes _ l.head [] s h
  rw [List.nil_append] at hout
  rw [hout]
  exact ⟨addrs, hF, hcur⟩

/-- On a non-empty chain from `head`, `Front` returns its first value. -/
theorem front_fwd [Inhabited T] (l : DoublyLinkedList T) (addrs : List Nat) (vals : List T)
    (v : T) (hF : Fwd l.nodes addrs vals) (hhead : l.head = addrs.head?)
    (hv : vals[0]? = some v) : Front l = some v := by
  have hlen := fwd_length _ _ _ hF
  have hi : 0 < vals.length := (List.getElem?_eq_some.1 hv).1
  obtain ⟨c, hc⟩ : ∃ c, addrs[0]? = some c := ⟨_, List.getElem?_eq_getElem (by omega)⟩
  obtain ⟨w, hw, hfv⟩ := fwd_get _ addrs vals hF 0 _ hc
  rw [hv, Option.some.injEq] at hw
  obtain ⟨nd, hnd, hdata, -⟩ := fview_load _ _ _ _ hfv
  have hh : l.head = some c := by rw [hhead, head?_eq_getElem?_zero, hc]
  have hne : ¬ l.head = none := by simp [hh]
  unfold Front
  rw [if_neg hne, hh, hnd, Option.map_some', hdata, hw]

/-- Bringing `Back` along a change of heap that keeps the data of the allocated nodes. -/
theorem back_congr [Inhabited T] (l l1 : DoublyLinkedList T) (b : T)
    (htail : l1.tail = l.tail)
    (hdata : ∀ a, a < l.nodes.length →
      (fview l1.nodes a).map Prod.fst = (fview l.nodes a).map Prod.fst)
    (hb : Back l = some b) : Back l1 = some b := by
  unfold Back at hb ⊢
  rw [htail]
  cases ht : l.tail with
  | none =>
    rw [ht] at hb
    simpa using hb
  | some t =>
    rw [ht] at hb
    simp only [reduceCtorEq, if_false, load] at hb ⊢
    cases hn : l.nodes[t]? with
    | none => simp [hn] at hb
    | some nd =>
      have htl : t < l.nodes.length := (List.getElem?_eq_some.1 hn).1
      have h := hdata t htl
      simp only [fview, hn, Option.map_some', Option.map_map] at h
      rw [hn] at hb
      cases hn1 : l1.nodes[t]? with
      | none => simp [hn1] at h
      | some nd1 =>
        simp only [hn1, Option.map_some', Function.comp, Option.some.injEq] at h hb ⊢
        rw [h, hb]

theorem head?_take_append {α : Type} (xs ys : List α) (k : Nat) :
    (xs.take (k + 1) ++ ys).head? = (xs ++ ys).head? := by
  cases xs <;> simp

theorem getElem?_splice {α : Type} (xs : List α) (k : Nat) (x : α) (hk : k + 1 ≤ xs.length) :
    (xs.take (k + 1) ++ x :: xs.drop (k + 1))[k + 1]? = some x := by
  have hl : (xs.take (k + 1)).length = k + 1 := by
    rw [List.length_take]
    omega
  rw [List.getElem?_append_right (by omega), hl]
  simp

theorem length_splice {α : Type} (xs : List α) (k : Nat) (x : α) :
    (xs.take (k + 1) ++ x :: xs.drop (k + 1)).length = xs.length + 1 := by
  simp only [List.length_append, List.length_take, List.length_cons, List.length_drop]
  omega

/-- The call `Insert(pos, data)` with `0 <= pos < count` on a list built as a chain: it returns,
and the new list is a chain whose values are `data` in front of the old ones when `pos == 0`, and
otherwise the old ones with `data` after the value at position `pos`. -/
theorem insert_rep (l : DoublyLinkedList T) (addrs : List Nat) (vals : List T) (pos : Nat)
    (data : T) (hR : Rep l addrs vals) (hpos : pos < vals.length) :
    ∃ l1 addrs1, Insert l pos data = some l1 ∧
      Fwd l1.nodes addrs1
        (if pos = 0 then data :: vals
         else vals.take (pos + 1) ++ data :: vals.drop (pos + 1)) ∧
      l1.head = addrs1.head? ∧ l1.count = l.count + 1 := by
  have hR0 := hR
  obtain ⟨hF, hhead, htail, hcount⟩ := hR
  have hlen := fwd_length _ _ _ hF
  have hn1 : ¬ ((pos : Int) < 0 ∨ (pos : Int) ≥ l.count) := by omega
  by_cases hp0 : pos = 0
  · obtain ⟨l1, h1, hF1, hh1, -, hc1⟩ := pushFront_rep l addrs vals data hR0
    refine ⟨l1, _, ?_, ?_, hh1, ?_⟩
    · unfold Insert
      rw [if_neg hn1, if_pos (by omega)]
      exact h1
    · rw [if_pos hp0]
      exact hF1
    · rw [hc1, hcount]
      simp
  · by_cases hpl : pos + 1 = vals.length
    · obtain ⟨l1, h1, hF1, hh1, -, hc1⟩ := pushBack_rep l addrs vals data hR0
      refine ⟨l1, addrs ++ [l.nodes.length], ?_, ?_, hh1, ?_⟩
      · unfold Insert
        rw [if_neg hn1, if_neg (by omega), if_pos (by omega)]
        exact h1
      · rw [if_neg hp0, hpl, List.take_length, List.drop_length]
        exact hF1
      · rw [hc1, hcount]
        simp
    · obtain ⟨l1, h1, hF1, hh1, -, hc1, -⟩ :=
        insert_fwd l addrs vals pos data hF hhead hcount (by omega) (by omega)
      refine ⟨l1, addrs.take (pos + 1) ++ l.nodes.length :: addrs.drop (pos + 1), h1, ?_, ?_,
        hc1⟩
      · rw [if_neg hp0]
        exact hF1
      · rw [hh1, hhead]
        have := head?_take_append addrs (l.nodes.length :: addrs.drop (pos + 1)) pos
        rw [this]
        cases addrs with
        | nil => simp at hlen; omega
        | cons a rest => rfl

theorem built_listEx : Built listEx := by
  have h1 : PushBack (emptyList Int) 2 = some ⟨[⟨2, none, none⟩], some 0, some 0, 1⟩ := by
    decide
  have h2 : PushBack (⟨[⟨2, none, none⟩], some 0, some 0, 1⟩ : DoublyLinkedList Int) 3
      = some ⟨[⟨2, some 1, none⟩, ⟨3, none, some 0⟩], some 0, some 1, 2⟩ := by
    decide
  have h3 : PushBack (⟨[⟨2, some 1, none⟩, ⟨3, none, some 0⟩], some 0, some 1, 2⟩ :
        DoublyLinkedList Int) 5
      = some ⟨[⟨2, some 1, none⟩, ⟨3, some 2, some 0⟩, ⟨5, none, some 1⟩], some 0, some 2, 3⟩ := by
    decide
  have h4 : PushFront (⟨[⟨2, some 1, none⟩, ⟨3, some 2, some 0⟩, ⟨5, none, some 1⟩], some 0,
        some 2, 3⟩ : DoublyLinkedList Int) 1 = some listEx := by
    decide
  exact Built.pushFront 1 (Built.pushBack 5 (Built.pushBack 3 (Built.pushBack 2 Built.empty h1)
    h2) h3) h4

/-! ## The claims on the linked list -/

/-- C13 as stated fails: on the list `[1, 2, 3, 5]` built by pushes, after `Insert(2, 4)` the
element at position 2 is still 3 (`Get`, `At` and `Slice` agree), not 4. -/
theorem insert_not_at_pos :
    Built listEx ∧ (0 : Int) ≤ 2 ∧ (2 : Int) < Size listEx ∧
    Insert listEx 2 4 = some listExInserted ∧
    Get listExInserted 2 = some 3 ∧ At listExInserted 2 = some 3 ∧
    Slice listExInserted = some [1, 2, 3, 4, 5] ∧ Get listExInserted 2 ≠ some 4 :=
  ⟨built_listEx, by decide, by decide, by decide, by decide, by decide, by decide, by decide⟩

/-- C13 as amended: on a list built by pushes, for every `pos` with `0 <= pos < Size()`,
`Insert(pos, data)` returns and `Size()` grows by exactly 1; when `pos == 0` the element at
position 0 is `data` and the former elements follow it; when `pos > 0` the element at position
`pos + 1` is `data`, the elements at positions `<= pos` are unchanged and the elements formerly
at positions `> pos` are shifted one position towards the back. -/
theorem insert_position [Inhabited T] (l : DoublyLinkedList T) (hB : Built l) (pos : Int)
    (data : T) (h0 : 0 ≤ pos) (h1 : pos < Size l) :
    ∃ s l1, Slice l = some s ∧ Size l = s.length ∧ Insert l pos data = some l1 ∧
      Size l1 = Size l + 1 ∧
      Slice l1 = some (if pos = 0 then data :: s
        else s.take (pos.toNat + 1) ++ data :: s.drop (pos.toNat + 1)) ∧
      Get l1 (if pos = 0 then 0 else pos + 1) = some data ∧
      At l1 (if pos = 0 then 0 else pos + 1) = some data := by
  obtain ⟨addrs, vals, hR⟩ := built_rep l hB
  obtain ⟨n, rfl⟩ := Int.eq_ofNat_of_zero_le h0
  have hcount : l.count = vals.length := hR.2.2.2
  have hn : n < vals.length := by
    unfold Size at h1
    omega
  obtain ⟨l1, addrs1, hins, hF1, hh1, hc1⟩ := insert_rep l addrs vals n data hR hn
  have hget : Get l1 (if (n : Int) = 0 then 0 else (n : Int) + 1) = some data := by
    by_cases hz : n = 0
    · subst hz
      rw [if_pos rfl] at hF1
      simp only [Nat.cast_zero, if_true]
      have := get_fwd l1 addrs1 _ 0 data hF1 hh1 (by rw [hc1, hcount]; simp) (by simp)
      simpa using this
    · rw [if_neg hz] at hF1
      rw [if_neg (by omega)]
      have := get_fwd l1 addrs1 _ (n + 1) data hF1 hh1
        (by rw [hc1, hcount, length_splice]; simp) (getElem?_splice vals n data (by omega))
      simpa using this
  refine ⟨vals, l1, slice_of_fwd l addrs vals hR.1 hR.2.1, hcount, hins, hc1, ?_, hget, hget⟩
  rw [slice_of_fwd l1 addrs1 _ hF1 hh1]
  by_cases hz : n = 0
  · rw [if_pos hz, if_pos (by omega)]
  · rw [if_neg hz, if_neg (by omega)]
    simp

/-- C13 as amended, at a concrete list: `Insert(1, 9)` on the list `[1, 2, 3, 5]`. -/
theorem insert_position_witness :
    ∃ s l1, Slice listEx = some s ∧ Size listEx = s.length ∧ Insert listEx 1 9 = some l1 ∧
      Size l1 = Size listEx + 1 ∧
      Slice l1 = some (if (1 : Int) = 0 then 9 :: s
        else s.take ((1 : Int).toNat + 1) ++ 9 :: s.drop ((1 : Int).toNat + 1)) ∧
      Get l1 (if (1 : Int) = 0 then 0 else 1 + 1) = some 9 ∧
      At l1 (if (1 : Int) = 0 then 0 else 1 + 1) = some 9 :=
  insert_position listEx built_listEx 1 9 (by decide) (by decide)

/-- C14: for every list whose `Slice()` is `s` with `Size() == len(s) >= 3` and every `pos`
with `0 < pos < Size() - 1`, `Insert(pos, x)` returns, `Slice()` becomes `s[0..pos]` followed by
`x` followed by `s[pos+1..]`, `Size()` is `len(s) + 1`, and `Front()` and `Back()` are
unchanged; and `Insert(2, 4)` on the list `[1, 2, 3, 5]` built by `PushBack(2); PushBack(3);
PushBack(5); PushFront(1)` gives `[1, 2, 3, 4, 5]` with `Size` 5, `Front` 1 and `Back` 5. -/
theorem insert_interior [Inhabited T] :
    (∀ (l : DoublyLinkedList T) (s : List T) (pos : Int) (x b : T),
      Slice l = some s → Size l = s.length → 3 ≤ s.length → 0 < pos → pos < Size l - 1 →
      Back l = some b →
      ∃ l1, Insert l pos x = some l1 ∧
        Slice l1 = some (s.take (pos.toNat + 1) ++ x :: s.drop (pos.toNat + 1)) ∧
        Size l1 = s.length + 1 ∧ Front l1 = Front l ∧ Back l1 = some b) ∧
    (Built listEx ∧ Slice listEx = some [1, 2, 3, 5] ∧
      Insert listEx 2 4 = some listExInserted ∧
      Slice listExInserted = some [1, 2, 3, 4, 5] ∧ Size listExInserted = 5 ∧
      Front listExInserted = some 1 ∧ Back listExInserted = some 5) := by
  refine ⟨?_, built_listEx, by decide, by decide, by decide, by decide, by decide, by decide⟩
  intro l s pos x b hs hsize h3 hp0 hp1 hb
  obtain ⟨addrs, hF, hhead⟩ := fwd_of_slice_eq l s hs
  obtain ⟨n, rfl⟩ := Int.eq_ofNat_of_zero_le (le_of_lt hp0)
  unfold Size at hsize hp1
  obtain ⟨l1, hins, hF1, hh1, ht1, hc1, -, hdata⟩ :=
    insert_fwd l addrs s n x hF hhead hsize (by omega) (by omega)
  have hhead1 : l1.head = (addrs.take (n + 1) ++ l.nodes.length :: addrs.drop (n + 1)).head? := by
    rw [hh1, hhead, head?_take_append]
    have hlen := fwd_length _ _ _ hF
    cases addrs with
    | nil => simp at hlen; omega
    | cons a rest => rfl
  obtain ⟨v, hv⟩ : ∃ v, s[0]? = some v := ⟨_, List.getElem?_eq_getElem (by omega)⟩
  have hv1 : (s.take (n + 1) ++ x :: s.drop (n + 1))[0]? = some v := by
    rw [List.getElem?_append_left (by rw [List.length_take]; omega), List.getElem?_take_of_lt
      (by omega), hv]
  refine ⟨l1, hins, ?_, ?_, ?_, back_congr l l1 b ht1 hdata hb⟩
  · rw [Int.toNat_ofNat]
    exact slice_of_fwd l1 _ _ hF1 hhead1
  · unfold Size
    rw [hc1, hsize]
  · rw [front_fwd l addrs s v hF hhead hv, front_fwd l1 _ _ v hF1 hhead1 hv1]

/-- C14 at a concrete list: `Insert(1, 9)` on the list `[1, 2, 3, 5]`. -/
theorem insert_interior_witness :
    ∃ l1, Insert listEx 1 9 = some l1 ∧
      Slice l1 = some (([1, 2, 3, 5] : List Int).take ((1 : Int).toNat + 1)
        ++ 9 :: ([1, 2, 3, 5] : List Int).drop ((1 : Int).toNat + 1)) ∧
      Size l1 = (([1, 2, 3, 5] : List Int).length : Int) + 1 ∧
      Front l1 = Front listEx ∧ Back l1 = some 5 :=
  insert_interior.1 listEx [1, 2, 3, 5] 1 9 5 (by decide) (by decide) (by decide) (by decide)
    (by decide) (by decide)

end Lists
